import Mathlib

/-!
Verification of the message-content protection pipeline of the Yueling
chat-service backend (`src/server/src/utils/crypto.rs`).

Bytes are modelled as `Nat` (values below 256 in every reachable state);
byte buffers are `List Nat`.  The pipeline's own logic (keystream loop,
block splitter/merger, Fisher–Yates permutation, padding injector,
frame codec, hex key handling, canonical JSON serialization of the
metadata struct) is embedded concretely.  The external crates the code
links against (`sha2`, `rand_chacha`, `aes_gcm`'s AEAD core, and
`serde_json::from_slice`) are parameters of a `Crypto` structure; the
theorems assume exactly the contracts those crates document
(e.g. AEAD round-trip, 32-byte digests), and a concrete toy instance
discharges those assumptions in the closed witnesses.
-/

namespace Yueling

/-- A byte buffer (each entry a byte value). -/
abbrev Bytes := List Nat

/-- One 16-byte block (`BLOCK_SIZE = 16` in the source). -/
abbrev Block := List Nat

/-- Errors, one constructor per `Err`-producing site of `crypto.rs`
(the Rust code uses `Box<dyn Error>` with a distinct message per site). -/
inductive Err where
  /-- `decrypt`: "数据过短" (frame shorter than 2 bytes). -/
  | dataTooShort
  /-- `decrypt`: "元数据长度超出数据范围" (declared metadata length exceeds buffer). -/
  | metadataRange
  /-- `aes_decrypt`: "数据过短，缺少nonce" (blob shorter than 12 bytes). -/
  | nonceMissing
  /-- `aes_decrypt`: "AES解密失败" (AEAD authentication failure). -/
  | aesAuth
  /-- `decrypt`: `serde_json::from_slice` failure on the decrypted metadata. -/
  | metadataParse
  /-- `decrypt`: "块数据长度不是块大小的整数倍" (block region not a multiple of 16). -/
  | blockAlignment
  /-- `remove_padding`: "填充位置越界" (padding position out of range). -/
  | paddingRange
  /-- `reverse_permutation`: "块数量与排列长度不匹配" (length mismatch). -/
  | permLenMismatch
  /-- `reverse_permutation`: "排列索引越界" (permutation index out of range). -/
  | permRange
  /-- `decrypt`: "密文长度不足" (merged ciphertext shorter than `original_len`). -/
  | ciphertextShort
  /-- `encrypt`: "元数据过长" (encrypted metadata longer than 65535 bytes). -/
  | metadataTooLong
  /-- `apply_permutation`: the unchecked indexing `blocks[idx]` aborts the
  process when `idx` is out of bounds; the abort is modelled as this error. -/
  | blockIndexOutOfBounds
  /-- `from_hex`: `hex::decode` failure (odd length or non-hex character). -/
  | hexInvalid
  /-- `from_hex`: "私钥长度必须为32字节" (decoded key is not 32 bytes). -/
  | keyLength
deriving DecidableEq, Repr

/-- Error kinds of the specification's taxonomy (§7), plus `parse` for the
metadata-deserialization failure (which the taxonomy does not name) and
`panicked` for the modelled index-out-of-bounds abort. -/
inductive ErrKind where
  | validation
  | crypto
  | encoding
  | parse
  | panicked
deriving DecidableEq, Repr

/-- Classification of each error site per the specification (§4.3, §4.7, §7). -/
def errKind : Err → ErrKind
  | .dataTooShort => .validation
  | .metadataRange => .validation
  | .nonceMissing => .crypto
  | .aesAuth => .crypto
  | .metadataParse => .parse
  | .blockAlignment => .validation
  | .paddingRange => .validation
  | .permLenMismatch => .validation
  | .permRange => .validation
  | .ciphertextShort => .validation
  | .metadataTooLong => .encoding
  | .blockIndexOutOfBounds => .panicked
  | .hexInvalid => .validation
  | .keyLength => .validation

/-- The metadata struct (`struct Metadata` in the source). -/
structure Metadata where
  original_len : Nat
  permutation : List Nat
  padding_positions : List Nat
deriving DecidableEq, Repr

/-- State of the deterministic generator (`ChaCha20Rng` in the source):
an abstract stream of 32-bit words together with the number of words
already consumed. -/
structure Rng where
  stream : Nat → Nat
  pos : Nat

/-- `rng.next_u32()`: the next word of the stream (reduced to 32 bits)
together with the advanced generator. -/
def nextU32 (r : Rng) : Nat × Rng :=
  (r.stream r.pos % 4294967296, ⟨r.stream, r.pos + 1⟩)

/-- Little-endian byte decomposition of one 32-bit word. -/
def leBytes (w : Nat) : List Nat :=
  [w % 256, w / 256 % 256, w / 65536 % 256, w / 16777216 % 256]

/-- `rng.fill_bytes` on a 16-byte buffer: consumes four 32-bit words and
lays them out little-endian (the word-stream view of `rand_chacha`). -/
def fillBytes16 (r : Rng) : List Nat × Rng :=
  let (w0, r0) := nextU32 r
  let (w1, r1) := nextU32 r0
  let (w2, r2) := nextU32 r1
  let (w3, r3) := nextU32 r2
  (leBytes w0 ++ leBytes w1 ++ leBytes w2 ++ leBytes w3, r3)

/-- The external primitives `crypto.rs` links against.  `sha256` is the
`sha2` crate's digest, `chacha` the `rand_chacha` word stream spawned by
`ChaCha20Rng::from_seed`, `aeadEnc`/`aeadDec` the `aes_gcm` core
(key → nonce → payload; the ciphertext includes the 16-byte tag but not
the nonce, which the Rust wrapper concatenates itself), and `deserMeta`
is `serde_json::from_slice::<Metadata>`. -/
structure Crypto where
  sha256 : Bytes → Bytes
  chacha : Bytes → Nat → Nat
  aeadEnc : Bytes → Bytes → Bytes → Bytes
  aeadDec : Bytes → Bytes → Bytes → Option Bytes
  deserMeta : Bytes → Option Metadata

/-- ASCII bytes of the domain-separation label `"deterministic-rng-seed"`. -/
def rngLabel : Bytes :=
  [100, 101, 116, 101, 114, 109, 105, 110, 105, 115, 116, 105, 99, 45,
   114, 110, 103, 45, 115, 101, 101, 100]

/-- ASCII bytes of the domain-separation label `"private-algorithm-keystream"`. -/
def keystreamLabel : Bytes :=
  [112, 114, 105, 118, 97, 116, 101, 45, 97, 108, 103, 111, 114, 105, 116,
   104, 109, 45, 107, 101, 121, 115, 116, 114, 101, 97, 109]

/-- `derive_rng`: seed a deterministic generator from
`SHA256(label ‖ private_key)`. -/
def deriveRng (c : Crypto) (key : Bytes) : Rng :=
  ⟨c.chacha (c.sha256 (rngLabel ++ key)), 0⟩

/-- The `while keystream.len() < length` loop of `derive_keystream`:
append the running digest, then rehash it.  The loop adds 32 bytes per
iteration, so `length` iterations of fuel always suffice. -/
def ksLoop (c : Crypto) : Nat → Bytes → Bytes → Nat → Bytes
  | 0, acc, _, _ => acc
  | fuel + 1, acc, seed, length =>
    if acc.length < length then ksLoop c fuel (acc ++ seed) (c.sha256 seed) length
    else acc

/-- `derive_keystream`: hash-chain keystream, truncated to `length`. -/
def deriveKeystream (c : Crypto) (key : Bytes) (length : Nat) : Bytes :=
  (ksLoop c length [] (c.sha256 (keystreamLabel ++ key)) length).take length

/-- `private_encrypt`: XOR of the data with the derived keystream. -/
def privateEncrypt (c : Crypto) (key data : Bytes) : Bytes :=
  List.zipWith (fun d k => d ^^^ k) data (deriveKeystream c key data.length)

/-- `private_decrypt`: identical to `private_encrypt`. -/
def privateDecrypt (c : Crypto) (key data : Bytes) : Bytes :=
  privateEncrypt c key data

/-- `aes_encrypt`: AEAD-encrypt under the private key and prepend the
12-byte nonce.  The nonce, drawn from `OsRng` in the source, is an
explicit argument; the crate's encrypt error path is unreachable for
in-range payloads and is not modelled. -/
def aesEncrypt (c : Crypto) (key nonce pt : Bytes) : Bytes :=
  nonce ++ c.aeadEnc key nonce pt

/-- `aes_decrypt`: split off the 12-byte nonce and AEAD-decrypt. -/
def aesDecrypt (c : Crypto) (key data : Bytes) : Except Err Bytes :=
  if data.length < 12 then .error .nonceMissing
  else
    match c.aeadDec key (data.take 12) (data.drop 12) with
    | some pt => .ok pt
    | none => .error .aesAuth

/-- `split_into_blocks` body: `data.chunks(16)`, zero-padding the final
chunk.  Structural fuel (one unit per produced block, `data.length`
always suffices). -/
def splitGo : Nat → Bytes → List Block
  | _, [] => []
  | 0, _ :: _ => []
  | fuel + 1, d :: ds =>
    ((d :: ds).take 16 ++ List.replicate (16 - ((d :: ds).take 16).length) 0) ::
      splitGo fuel ((d :: ds).drop 16)

/-- `split_into_blocks` at the only block size used, `BLOCK_SIZE = 16`. -/
def splitIntoBlocks (data : Bytes) : List Block :=
  splitGo data.length data

/-- `merge_blocks`: concatenation of the blocks. -/
def mergeBlocks (blocks : List Block) : Bytes :=
  blocks.flatten

/-- `perm.swap(i, j)` on a list (both indices in bounds at every use). -/
def listSwap (l : List Nat) (i j : Nat) : List Nat :=
  (l.set i (l.getD j 0)).set j (l.getD i 0)

/-- The `for i in (1..len).rev()` Fisher–Yates loop of
`generate_permutation`: executes the body for indices `i, i-1, …, 1`. -/
def fyLoop (rng : Rng) (perm : List Nat) : Nat → List Nat × Rng
  | 0 => (perm, rng)
  | k + 1 =>
    let (w, rng') := nextU32 rng
    let j := w % (k + 2)
    fyLoop rng' (listSwap perm (k + 1) j) k

/-- `generate_permutation`: start from `(0..len)` and shuffle. -/
def generatePermutation (len : Nat) (rng : Rng) : List Nat × Rng :=
  fyLoop rng (List.range len) (len - 1)

/-- `apply_permutation`: push `blocks[idx]` for each `idx` of the
permutation; the unchecked indexing panic is modelled by `none`. -/
def applyPermutation (blocks : List Block) : List Nat → Option (List Block)
  | [] => some []
  | idx :: rest =>
    match blocks[idx]?, applyPermutation blocks rest with
    | some b, some s => some (b :: s)
    | _, _ => none

/-- The loop of `reverse_permutation`: for each `(i, pos)` of the
enumerated permutation, bounds-check `pos` then
`std::mem::swap(&mut restored[pos], &mut blocks[i])`. -/
def revGo (restored blocks : List Block) (i : Nat) : List Nat → Except Err (List Block)
  | [] => .ok restored
  | pos :: rest =>
    if blocks.length ≤ pos then .error .permRange
    else revGo (restored.set pos (blocks.getD i [])) (blocks.set i (restored.getD pos [])) (i + 1) rest

/-- `reverse_permutation`. -/
def reversePermutation (blocks : List Block) (permutation : List Nat) : Except Err (List Block) :=
  if blocks.length ≠ permutation.length then .error .permLenMismatch
  else revGo (List.replicate blocks.length []) blocks 0 permutation

/-- The `while i < blocks.len()` loop of `add_padding`.  `acc` is the
already-passed prefix `blocks[..i]` (so `i = acc.length`), `rest` the
blocks still ahead of the cursor.  With probability 1/3 (drawn word
divisible by 3) a random 16-byte block is inserted at the cursor, its
position `i` is recorded, and the cursor skips it. -/
def addPaddingGo (rng : Rng) (acc : List Block) (positions : List Nat) :
    List Block → List Block × List Nat × Rng
  | [] => (acc, positions, rng)
  | b :: rest =>
    let (w, rng') := nextU32 rng
    if w % 3 = 0 then
      let (pad, rng'') := fillBytes16 rng'
      addPaddingGo rng'' (acc ++ [pad, b]) (positions ++ [acc.length]) rest
    else
      addPaddingGo rng' (acc ++ [b]) positions rest

/-- `add_padding`. -/
def addPadding (blocks : List Block) (rng : Rng) : List Block × List Nat × Rng :=
  addPaddingGo rng [] [] blocks

/-- Insertion step of a stable descending sort. -/
def insertDesc (x : Nat) : List Nat → List Nat
  | [] => [x]
  | y :: ys => if y < x then x :: y :: ys else y :: insertDesc x ys

/-- `sorted_positions.sort_by(|a, b| b.cmp(a))`: a stable descending
sort (insertion sort is stable, hence extensionally equal to the
source's stable slice sort). -/
def sortDesc : List Nat → List Nat
  | [] => []
  | x :: xs => insertDesc x (sortDesc xs)

/-- The removal loop of `remove_padding`: for each position (already
sorted descending), bounds-check then `blocks.remove(pos)`. -/
def removeGo (blocks : List Block) : List Nat → Except Err (List Block)
  | [] => .ok blocks
  | pos :: rest =>
    if blocks.length ≤ pos then .error .paddingRange
    else removeGo (blocks.eraseIdx pos) rest

/-- `remove_padding`. -/
def removePadding (blocks : List Block) (paddingPositions : List Nat) : Except Err (List Block) :=
  removeGo blocks (sortDesc paddingPositions)

/-! ### Canonical JSON serialization of `Metadata`

`serde_json::to_vec` on the derived `Metadata` struct emits exactly
`{"original_len":<n>,"permutation":[<n>,…],"padding_positions":[<n>,…]}`
(fields in declaration order, no whitespace, decimal integers).  The
serializer is embedded concretely; `serde_json::from_slice`, which
accepts arbitrary JSON, stays an abstract parameter (`Crypto.deserMeta`),
and `canonicalDeser` below is a concrete instance for it that accepts
exactly the canonical output. -/

/-- Big-endian decimal ASCII digits of `n` (fuelled; `natDigits` below
always supplies sufficient fuel). -/
def natDigitsF : Nat → Nat → List Nat
  | 0, n => [n % 10 + 48]
  | fuel + 1, n => if n < 10 then [n + 48] else natDigitsF fuel (n / 10) ++ [n % 10 + 48]

/-- Decimal ASCII rendering of a `usize` field. -/
def natDigits (n : Nat) : List Nat :=
  natDigitsF n n

/-- JSON array of decimal integers, e.g. `[0,2,1]`. -/
def serNatList (l : List Nat) : Bytes :=
  match l with
  | [] => [91, 93]
  | x :: xs => 91 :: (natDigits x ++ (xs.map (fun y => 44 :: natDigits y)).flatten ++ [93])

/-- ASCII bytes of the literal text between a brace and `"original_len":`. -/
def litOriginalLen : Bytes :=
  [123, 34, 111, 114, 105, 103, 105, 110, 97, 108, 95, 108, 101, 110, 34, 58]

/-- ASCII bytes of the literal `,"permutation":`. -/
def litPermutation : Bytes :=
  [44, 34, 112, 101, 114, 109, 117, 116, 97, 116, 105, 111, 110, 34, 58]

/-- ASCII bytes of the literal `,"padding_positions":`. -/
def litPaddingPositions : Bytes :=
  [44, 34, 112, 97, 100, 100, 105, 110, 103, 95, 112, 111, 115, 105, 116,
   105, 111, 110, 115, 34, 58]

/-- `serde_json::to_vec(&metadata)`: the canonical byte serialization. -/
def serMeta (m : Metadata) : Bytes :=
  litOriginalLen ++ natDigits m.original_len ++
  litPermutation ++ serNatList m.permutation ++
  litPaddingPositions ++ serNatList m.padding_positions ++ [125]

/-- Is `b` an ASCII decimal digit? -/
def isDigitByte (b : Nat) : Bool :=
  48 ≤ b && b ≤ 57

/-- Parse a maximal run of decimal digits (big-endian value). -/
def parseNat (s : Bytes) : Option (Nat × Bytes) :=
  let ds := s.takeWhile isDigitByte
  if ds.isEmpty then none
  else some (ds.foldl (fun a d => a * 10 + (d - 48)) 0, s.dropWhile isDigitByte)

/-- Require the exact byte sequence `pat` as a prefix. -/
def expectLit (pat s : Bytes) : Option Bytes :=
  if s.take pat.length = pat then some (s.drop pat.length) else none

/-- Comma-separated tail of a decimal-integer JSON array (fuelled by the
number of remaining elements; the byte count of the input always
suffices). -/
def parseNatListTail (fuel : Nat) (s : Bytes) : Option (List Nat × Bytes) :=
  match s with
  | [] => none
  | b :: rest =>
    if b = 93 then some ([], rest)
    else
      match fuel with
      | 0 => none
      | fuel + 1 =>
        if b = 44 then do
          let (n, rest1) ← parseNat rest
          let (ns, rest2) ← parseNatListTail fuel rest1
          pure (n :: ns, rest2)
        else none

/-- A decimal-integer JSON array such as `[0,2,1]` or `[]`. -/
def parseNatList (s : Bytes) : Option (List Nat × Bytes) :=
  match s with
  | [] => none
  | b :: rest =>
    if b = 91 then
      match rest with
      | [] => none
      | b2 :: rest2 =>
        if b2 = 93 then some ([], rest2)
        else do
          let (n, rest1) ← parseNat (b2 :: rest2)
          let (ns, rest3) ← parseNatListTail rest1.length rest1
          pure (n :: ns, rest3)
    else none

/-- A strict parser for the canonical `Metadata` serialization: a
concrete witness instance for the abstract `Crypto.deserMeta`. -/
def canonicalDeser (s : Bytes) : Option Metadata := do
  let s1 ← expectLit litOriginalLen s
  let (ol, s2) ← parseNat s1
  let s3 ← expectLit litPermutation s2
  let (perm, s4) ← parseNatList s3
  let s5 ← expectLit litPaddingPositions s4
  let (pads, s6) ← parseNatList s5
  let s7 ← expectLit [125] s6
  if s7.isEmpty then pure ⟨ol, perm, pads⟩ else none

/-! ### Hex key handling (`from_hex` / `private_key_hex`) -/

/-- `hex` crate digit value: `0-9`, `a-f`, `A-F`. -/
def hexVal (b : Nat) : Option Nat :=
  if 48 ≤ b ∧ b ≤ 57 then some (b - 48)
  else if 97 ≤ b ∧ b ≤ 102 then some (b - 87)
  else if 65 ≤ b ∧ b ≤ 70 then some (b - 55)
  else none

/-- `hex::decode`: pairs of hex digits; fails on odd length or a
non-hex byte. -/
def hexDecode : Bytes → Option Bytes
  | [] => some []
  | [_] => none
  | hi :: lo :: rest =>
    match hexVal hi, hexVal lo, hexDecode rest with
    | some h, some l, some bs => some ((h * 16 + l) :: bs)
    | _, _, _ => none

/-- Lowercase hex digit for a nibble. -/
def hexDigit (n : Nat) : Nat :=
  if n < 10 then n + 48 else n + 87

/-- `hex::encode`: lowercase hex of each byte. -/
def hexEncode (bytes : Bytes) : Bytes :=
  (bytes.map (fun b => [hexDigit (b / 16), hexDigit (b % 16)])).flatten

/-- ASCII lowercasing of one byte (`A`–`Z` shifted down). -/
def lowerByte (b : Nat) : Nat :=
  if 65 ≤ b ∧ b ≤ 90 then b + 32 else b

/-- `CryptoService::from_hex`: decode, then demand exactly 32 bytes.
Returns the private key bytes of the constructed service. -/
def fromHex (s : Bytes) : Except Err Bytes :=
  match hexDecode s with
  | none => .error .hexInvalid
  | some bytes => if bytes.length ≠ 32 then .error .keyLength else .ok bytes

/-- `CryptoService::private_key_hex`. -/
def privateKeyHex (key : Bytes) : Bytes :=
  hexEncode key

/-! ### Top-level `encrypt` / `decrypt`

The two `OsRng` nonces drawn inside `encrypt` (one per `aes_encrypt`
call) are explicit arguments `n1` (payload) and `n2` (metadata). -/

/-- The AEAD ciphertext of the payload: steps 1–2 of `encrypt`. -/
def encAeadCiphertext (c : Crypto) (key n1 P : Bytes) : Bytes :=
  aesEncrypt c key n1 (privateEncrypt c key P)

/-- The real blocks: step 2 (splitting) of `encrypt`. -/
def encBlocks (c : Crypto) (key n1 P : Bytes) : List Block :=
  splitIntoBlocks (encAeadCiphertext c key n1 P)

/-- The derived permutation: step 3 of `encrypt`. -/
def encPermutation (c : Crypto) (key n1 P : Bytes) : List Nat :=
  (generatePermutation (encBlocks c key n1 P).length (deriveRng c key)).1

/-- The generator state after the permutation draw. -/
def encRngAfterPerm (c : Crypto) (key n1 P : Bytes) : Rng :=
  (generatePermutation (encBlocks c key n1 P).length (deriveRng c key)).2

/-- The shuffled blocks (`none` would be the indexing panic). -/
def encShuffled (c : Crypto) (key n1 P : Bytes) : Option (List Block) :=
  applyPermutation (encBlocks c key n1 P) (encPermutation c key n1 P)

/-- The block list after padding injection: step 4 of `encrypt`. -/
def encPaddedBlocks (c : Crypto) (key n1 P : Bytes) : List Block :=
  (addPadding ((encShuffled c key n1 P).getD []) (encRngAfterPerm c key n1 P)).1

/-- The recorded decoy positions: step 4 of `encrypt`. -/
def encPaddingPositions (c : Crypto) (key n1 P : Bytes) : List Nat :=
  (addPadding ((encShuffled c key n1 P).getD []) (encRngAfterPerm c key n1 P)).2.1

/-- The metadata struct built in step 5 of `encrypt`. -/
def encryptMetadata (c : Crypto) (key n1 P : Bytes) : Metadata :=
  ⟨(encAeadCiphertext c key n1 P).length,
   encPermutation c key n1 P, encPaddingPositions c key n1 P⟩

/-- The encrypted metadata region (nonce ‖ AEAD ciphertext): step 6. -/
def encEncryptedMetadata (c : Crypto) (key n1 n2 P : Bytes) : Bytes :=
  aesEncrypt c key n2 (serMeta (encryptMetadata c key n1 P))

/-- `CryptoService::encrypt`. -/
def encrypt (c : Crypto) (key n1 n2 P : Bytes) : Except Err Bytes :=
  match encShuffled c key n1 P with
  | none => .error .blockIndexOutOfBounds
  | some _ =>
    let encryptedMetadata := encEncryptedMetadata c key n1 n2 P
    if 65535 < encryptedMetadata.length then .error .metadataTooLong
    else
      .ok ([encryptedMetadata.length / 256 % 256, encryptedMetadata.length % 256] ++
           encryptedMetadata ++ mergeBlocks (encPaddedBlocks c key n1 P))

/-- Steps 3–8 of `CryptoService::decrypt` (from the block-count check on):
re-split the block region, remove padding, invert the permutation, merge
and truncate, AEAD-decrypt, undo the private layer. -/
def decryptBlocks (c : Crypto) (key : Bytes) (metadata : Metadata) (blocksData : Bytes) :
    Except Err Bytes :=
  let blockCount := blocksData.length / 16
  if blockCount * 16 ≠ blocksData.length then .error .blockAlignment
  else
    let blocks := (List.range blockCount).map
      (fun i => (blocksData.drop (i * 16)).take 16)
    match removePadding blocks metadata.padding_positions with
    | .error e => .error e
    | .ok unpadded =>
      match reversePermutation unpadded metadata.permutation with
      | .error e => .error e
      | .ok unshuffled =>
        let ciphertext := mergeBlocks unshuffled
        if ciphertext.length < metadata.original_len then .error .ciphertextShort
        else
          match aesDecrypt c key (ciphertext.take metadata.original_len) with
          | .error e => .error e
          | .ok aesDecrypted => .ok (privateDecrypt c key aesDecrypted)

/-- `CryptoService::decrypt` (steps 1–2: frame parsing and metadata
recovery, then `decryptBlocks`). -/
def decrypt (c : Crypto) (key data : Bytes) : Except Err Bytes :=
  if data.length < 2 then .error .dataTooShort
  else
    let metadataLen := data.getD 0 0 * 256 + data.getD 1 0
    let metadataEnd := 2 + metadataLen
    if data.length < metadataEnd then .error .metadataRange
    else
      let encryptedMetadata := (data.drop 2).take metadataLen
      let blocksData := data.drop metadataEnd
      match aesDecrypt c key encryptedMetadata with
      | .error e => .error e
      | .ok metadataBytes =>
        match c.deserMeta metadataBytes with
        | none => .error .metadataParse
        | some metadata => decryptBlocks c key metadata blocksData

/-! ### Contracts of the external primitives

Each predicate states exactly the documented behaviour of the
corresponding crate that the Rust code relies on. -/

/-- `sha2`: digests are 32 bytes. -/
def Sha256Len (c : Crypto) : Prop :=
  ∀ x, (c.sha256 x).length = 32

/-- `aes_gcm`: decryption inverts encryption under the same key/nonce. -/
def AeadRoundTrip (c : Crypto) (key : Bytes) : Prop :=
  ∀ n p, c.aeadDec key n (c.aeadEnc key n p) = some p

/-- `aes_gcm`: the ciphertext is the payload plus the 16-byte tag. -/
def AeadLen (c : Crypto) : Prop :=
  ∀ k n p, (c.aeadEnc k n p).length = p.length + 16

/-- `serde_json`: `from_slice` inverts `to_vec` on `Metadata`. -/
def DeserRoundTrip (c : Crypto) : Prop :=
  ∀ m, c.deserMeta (serMeta m) = some m

/-! ### A concrete instance of the external primitives

Used only by the closed witnesses: an all-zero hash/stream, an AEAD
whose tag is sixteen zero bytes, and the canonical metadata parser. -/

/-- Toy external primitives satisfying the contract predicates. -/
def toyCrypto : Crypto where
  sha256 := fun _ => List.replicate 32 0
  chacha := fun _ _ => 0
  aeadEnc := fun _ _ pt => pt ++ List.replicate 16 0
  aeadDec := fun _ _ ct =>
    if 16 ≤ ct.length ∧ ct.drop (ct.length - 16) = List.replicate 16 0 then
      some (ct.take (ct.length - 16))
    else none
  deserMeta := canonicalDeser

/-- The all-zero 32-byte key used by the witnesses. -/
def toyKey : Bytes := List.replicate 32 0

/-- A 12-byte payload nonce for the witnesses. -/
def toyN1 : Bytes := List.replicate 12 1

/-- A 12-byte metadata nonce for the witnesses. -/
def toyN2 : Bytes := List.replicate 12 2

/-! ### Generic list helpers -/

theorem getD_set_self {α : Type} {l : List α} {i : Nat} {x d : α} (h : i < l.length) :
    (l.set i x).getD i d = x := by
  rw [List.getD_eq_getElem _ _ (by simpa using h)]
  simp

theorem getD_set_ne {α : Type} {l : List α} {i j : Nat} {x d : α} (h : i ≠ j) :
    (l.set i x).getD j d = l.getD j d := by
  by_cases hj : j < l.length
  · rw [List.getD_eq_getElem _ _ (by simpa using hj), List.getD_eq_getElem _ _ hj]
    simp [h]
  · rw [List.getD_eq_default _ _ (by simpa using Nat.le_of_not_lt hj),
      List.getD_eq_default _ _ (Nat.le_of_not_lt hj)]

theorem eraseIdx_set_self (l : List Block) (i : Nat) (x : Block) :
    (l.set i x).eraseIdx i = l.eraseIdx i := by
  induction l generalizing i with
  | nil => simp
  | cons a t ih =>
    cases i with
    | zero => simp
    | succ k => simp [ih]

theorem eraseIdx_set_of_lt (l : List Block) {i j : Nat} (x : Block) (h : i < j) :
    (l.set i x).eraseIdx j = (l.eraseIdx j).set i x := by
  induction l generalizing i j with
  | nil => simp
  | cons a t ih =>
    cases j with
    | zero => omega
    | succ k =>
      cases i with
      | zero => simp
      | succ m => simpa using ih (Nat.lt_of_succ_lt_succ h)

theorem flatten_length_of_all16 (bs : List Block) (h : ∀ b ∈ bs, b.length = 16) :
    (mergeBlocks bs).length = 16 * bs.length := by
  induction bs with
  | nil => simp [mergeBlocks]
  | cons b t ih =>
    have hb : b.length = 16 := h b (by simp)
    have ht : ∀ x ∈ t, x.length = 16 := fun x hx => h x (by simp [hx])
    simp [mergeBlocks] at ih ⊢
    rw [ih ht, hb]
    ring

/-! ### Private layer: XOR self-inverse -/

theorem zipWith_xor_cancel : ∀ (P ks : Bytes), P.length ≤ ks.length →
    List.zipWith (fun d k => d ^^^ k) (List.zipWith (fun d k => d ^^^ k) P ks) ks = P
  | [], _, _ => by simp
  | _ :: _, [], h => by simp at h
  | p :: P, k :: ks, h => by
    simp only [List.zipWith]
    rw [zipWith_xor_cancel P ks (Nat.le_of_succ_le_succ h)]
    simp [Nat.xor_assoc]

theorem ksLoop_length_ge (c : Crypto) (length : Nat) (hs : Sha256Len c) :
    ∀ fuel (acc seed : Bytes), seed.length = 32 → length ≤ acc.length + fuel →
      length ≤ (ksLoop c fuel acc seed length).length
  | 0, acc, _, _, hle => by simpa [ksLoop] using hle
  | fuel + 1, acc, seed, hseed, hle => by
    rw [ksLoop]
    split
    · exact ksLoop_length_ge c length hs fuel (acc ++ seed) (c.sha256 seed) (hs seed)
        (by simp [hseed]; omega)
    · omega

theorem deriveKeystream_length (c : Crypto) (key : Bytes) (n : Nat) (hs : Sha256Len c) :
    (deriveKeystream c key n).length = n := by
  have h := ksLoop_length_ge c n hs n [] (c.sha256 (keystreamLabel ++ key)) (hs _) (by simp)
  simp [deriveKeystream]
  omega

theorem privateEncrypt_length (c : Crypto) (key P : Bytes) (hs : Sha256Len c) :
    (privateEncrypt c key P).length = P.length := by
  simp [privateEncrypt, deriveKeystream_length c key _ hs]

theorem privateDecrypt_privateEncrypt (c : Crypto) (key P : Bytes) (hs : Sha256Len c) :
    privateDecrypt c key (privateEncrypt c key P) = P := by
  unfold privateDecrypt
  conv_lhs => rw [privateEncrypt, privateEncrypt_length c key P hs]
  rw [privateEncrypt]
  exact zipWith_xor_cancel P _ (by rw [deriveKeystream_length c key _ hs])

/-! ### Block splitter/merger -/

theorem splitGo_all16 : ∀ (fuel : Nat) (data : Bytes), ∀ b ∈ splitGo fuel data, b.length = 16
  | _, [], b, hb => by simp [splitGo] at hb
  | 0, d :: ds, b, hb => by simp [splitGo] at hb
  | fuel + 1, d :: ds, b, hb => by
    rw [splitGo] at hb
    rcases List.mem_cons.1 hb with h | h
    · have h1 : ((d :: ds).take 16).length ≤ 16 := by
        simp [List.length_take]

      subst h
      simp only [List.length_append, List.length_replicate]
      omega
    · exact splitGo_all16 fuel _ b h

theorem splitIntoBlocks_all16 (data : Bytes) : ∀ b ∈ splitIntoBlocks data, b.length = 16 :=
  splitGo_all16 data.length data

theorem splitGo_length : ∀ (fuel : Nat) (data : Bytes), data.length ≤ fuel →
    (splitGo fuel data).length = (data.length + 15) / 16
  | _, [], _ => by simp [splitGo]
  | 0, d :: ds, h => by simp at h
  | fuel + 1, d :: ds, h => by
    have hc : (d :: ds).length = ds.length + 1 := by simp
    have hdrop : ((d :: ds).drop 16).length = (d :: ds).length - 16 := by
      simp [List.length_drop]
    have hfuel : ((d :: ds).drop 16).length ≤ fuel := by omega
    rw [splitGo, List.length_cons, splitGo_length fuel _ hfuel, hdrop]
    omega

theorem splitIntoBlocks_length (data : Bytes) :
    (splitIntoBlocks data).length = (data.length + 15) / 16 :=
  splitGo_length data.length data (Nat.le_refl _)

theorem splitGo_flatten_take : ∀ (fuel : Nat) (data : Bytes), data.length ≤ fuel →
    ((splitGo fuel data).flatten).take data.length = data
  | _, [], _ => by simp [splitGo]
  | 0, d :: ds, h => by simp at h
  | fuel + 1, d :: ds, h => by
    rw [splitGo]
    by_cases h16 : (d :: ds).length ≤ 16
    · have hdrop : (d :: ds).drop 16 = [] := List.drop_eq_nil_of_le h16
      have htake : (d :: ds).take 16 = d :: ds := List.take_of_length_le h16
      simp only [hdrop, splitGo, List.flatten_cons, List.flatten_nil, List.append_nil, htake]
      rw [List.take_append_of_le_length (Nat.le_refl _), List.take_length]
    · have hc : (d :: ds).length = ds.length + 1 := by simp
      have hlen : ((d :: ds).take 16).length = 16 := by
        simp [List.length_take]; omega
      have hrep : List.replicate (16 - ((d :: ds).take 16).length) (0 : Nat) = [] := by
        rw [hlen]; simp
      rw [hrep, List.append_nil, List.flatten_cons]
      have hdl : ((d :: ds).drop 16).length = (d :: ds).length - 16 := by simp
      have ih := splitGo_flatten_take fuel ((d :: ds).drop 16) (by rw [hdl]; simp at h ⊢; omega)
      have hsplit : (d :: ds).length = ((d :: ds).take 16).length + ((d :: ds).drop 16).length := by
        rw [hlen, hdl]; omega
      rw [hsplit, List.take_append, ih, List.take_append_drop]

/-! ### The stable descending sort -/

theorem insertDesc_perm (x : Nat) (l : List Nat) : (insertDesc x l).Perm (x :: l) := by
  induction l with
  | nil => simp [insertDesc]
  | cons y ys ih =>
    rw [insertDesc]
    split
    · exact List.Perm.refl _
    · exact ((ih.cons y).trans (List.Perm.swap x y ys)).symm.symm

theorem sortDesc_perm (l : List Nat) : (sortDesc l).Perm l := by
  induction l with
  | nil => simp [sortDesc]
  | cons x xs ih => exact (insertDesc_perm x (sortDesc xs)).trans (ih.cons x)

theorem insertDesc_sorted (x : Nat) (l : List Nat) (h : l.Pairwise (· ≥ ·)) :
    (insertDesc x l).Pairwise (· ≥ ·) := by
  induction l with
  | nil => simp [insertDesc]
  | cons y ys ih =>
    rw [insertDesc]
    rcases List.pairwise_cons.1 h with ⟨hy, hys⟩
    split
    · refine List.pairwise_cons.2 ⟨?_, h⟩
      intro a ha
      rcases List.mem_cons.1 ha with rfl | ha
      · omega
      · have := hy a ha; omega
    · refine List.pairwise_cons.2 ⟨?_, ih hys⟩
      intro a ha
      have := (insertDesc_perm x ys).mem_iff.1 ha
      rcases List.mem_cons.1 this with rfl | ha'
      · omega
      · exact hy a ha'

theorem sortDesc_sorted (l : List Nat) : (sortDesc l).Pairwise (· ≥ ·) := by
  induction l with
  | nil => simp [sortDesc]
  | cons x xs ih => exact insertDesc_sorted x (sortDesc xs) ih

theorem insertDesc_of_forall_le (x : Nat) (l : List Nat) (h : ∀ y ∈ l, x ≤ y) :
    insertDesc x l = l ++ [x] := by
  induction l with
  | nil => simp [insertDesc]
  | cons y ys ih =>
    rw [insertDesc, if_neg (by have := h y (by simp); omega)]
    rw [ih (fun z hz => h z (by simp [hz]))]
    simp

theorem sortDesc_of_lt_sorted (l : List Nat) (h : l.Pairwise (· < ·)) :
    sortDesc l = l.reverse := by
  induction l with
  | nil => simp [sortDesc]
  | cons x xs ih =>
    rcases List.pairwise_cons.1 h with ⟨hx, hxs⟩
    rw [sortDesc, ih hxs, insertDesc_of_forall_le]
    · simp
    · intro y hy
      exact Nat.le_of_lt (hx y (List.mem_reverse.1 hy))

/-! ### `remove_padding` lemmas -/

theorem removeGo_error_of_oob : ∀ (ps : List Nat) (blocks : List Block),
    (∃ p ∈ ps, blocks.length ≤ p) → removeGo blocks ps = .error .paddingRange
  | [], _, h => by simp at h
  | p0 :: rest, blocks, h => by
    rw [removeGo]
    split
    · rfl
    · rename_i hlt
      rcases h with ⟨p, hp, hge⟩
      rcases List.mem_cons.1 hp with rfl | hmem
      · omega
      · refine removeGo_error_of_oob rest _ ⟨p, hmem, ?_⟩
        have := List.length_eraseIdx_le blocks p0
        omega

theorem removePadding_error_of_oob (blocks : List Block) (ps : List Nat)
    (h : ∃ p ∈ ps, blocks.length ≤ p) : removePadding blocks ps = .error .paddingRange := by
  rcases h with ⟨p, hp, hge⟩
  exact removeGo_error_of_oob _ _ ⟨p, (sortDesc_perm ps).mem_iff.2 hp, hge⟩

/-- Core removal lemma: strictly descending in-range positions are removed
without error, and appending extra blocks on the right commutes with the
removal. -/
theorem removeGo_ok_append : ∀ (ps : List Nat) (acc : List Block),
    ps.Pairwise (· > ·) → (∀ p ∈ ps, p < acc.length) →
    ∃ res, removeGo acc ps = .ok res ∧ ∀ tail, removeGo (acc ++ tail) ps = .ok (res ++ tail)
  | [], acc, _, _ => ⟨acc, by simp [removeGo], fun tail => by simp [removeGo]⟩
  | p0 :: rest, acc, hpair, hb => by
    rcases List.pairwise_cons.1 hpair with ⟨hgt, hrest⟩
    have hp0 : p0 < acc.length := hb p0 (by simp)
    have hb' : ∀ p ∈ rest, p < (acc.eraseIdx p0).length := by
      intro p hp
      rw [List.length_eraseIdx_of_lt hp0]
      have := hgt p hp
      omega
    rcases removeGo_ok_append rest (acc.eraseIdx p0) hrest hb' with ⟨res, hres, htail⟩
    refine ⟨res, ?_, ?_⟩
    · rw [removeGo, if_neg (by omega)]
      exact hres
    · intro tail
      rw [removeGo, if_neg (by simp; omega), List.eraseIdx_append_of_lt_length hp0]
      exact htail tail

/-! ### `add_padding` lemmas -/

/-- The positions recorded by the padding loop, the final generator state
and the number of produced blocks depend only on the lengths of the
inputs, never on block contents. -/
theorem addPaddingGo_shape : ∀ (rest rest' : List Block) (rng : Rng)
    (acc acc' : List Block) (pos : List Nat),
    rest.length = rest'.length → acc.length = acc'.length →
    (addPaddingGo rng acc pos rest).2.1 = (addPaddingGo rng acc' pos rest').2.1 ∧
    (addPaddingGo rng acc pos rest).2.2 = (addPaddingGo rng acc' pos rest').2.2 ∧
    (addPaddingGo rng acc pos rest).1.length = (addPaddingGo rng acc' pos rest').1.length
  | [], [], rng, acc, acc', pos, _, hacc => by
    simp [addPaddingGo, hacc]
  | b :: rest, b' :: rest', rng, acc, acc', pos, hlen, hacc => by
    rw [addPaddingGo, addPaddingGo]
    simp only []
    split
    · rw [hacc]
      exact addPaddingGo_shape rest rest' _ _ _ _ (by simpa using hlen) (by simp [hacc])
    · exact addPaddingGo_shape rest rest' _ _ _ _ (by simpa using hlen) (by simp [hacc])
  | [], _ :: _, _, _, _, _, hlen, _ => by simp at hlen
  | _ :: _, [], _, _, _, _, hlen, _ => by simp at hlen

/-- Padding-loop invariant: recorded positions stay strictly increasing
and in range, and removing them (in descending order) from the padded
output recovers the real blocks. -/
theorem addPaddingGo_remove : ∀ (rest : List Block) (rng : Rng) (acc : List Block)
    (pos : List Nat) (realAcc : List Block),
    pos.Pairwise (· < ·) → (∀ p ∈ pos, p < acc.length) →
    removeGo acc pos.reverse = .ok realAcc →
    ((addPaddingGo rng acc pos rest).2.1).Pairwise (· < ·) ∧
    (∀ p ∈ (addPaddingGo rng acc pos rest).2.1, p < (addPaddingGo rng acc pos rest).1.length) ∧
    removeGo (addPaddingGo rng acc pos rest).1 ((addPaddingGo rng acc pos rest).2.1).reverse =
      .ok (realAcc ++ rest)
  | [], rng, acc, pos, realAcc, hpair, hb, hrm => by
    simpa [addPaddingGo] using ⟨hpair, hb, hrm⟩
  | b :: rest, rng, acc, pos, realAcc, hpair, hb, hrm => by
    rw [addPaddingGo]
    simp only []
    have hdesc : pos.reverse.Pairwise (· > ·) := by
      rw [List.pairwise_reverse]
      exact hpair
    have hbrev : ∀ p ∈ pos.reverse, p < acc.length := fun p hp => hb p (List.mem_reverse.1 hp)
    rcases removeGo_ok_append pos.reverse acc hdesc hbrev with ⟨res, hres, htail0⟩
    have hreal : res = realAcc := by
      rw [hres] at hrm
      exact Except.ok.inj hrm
    have htail : ∀ tail, removeGo (acc ++ tail) pos.reverse = .ok (realAcc ++ tail) := by
      intro tail
      rw [htail0 tail, hreal]
    split
    · -- a decoy block is inserted before `b`
      have hpair' : (pos ++ [acc.length]).Pairwise (· < ·) := by
        rw [List.pairwise_append]
        exact ⟨hpair, by simp, fun a ha b' hb' => by simp at hb'; subst hb'; exact hb a ha⟩
      have hb' : ∀ p ∈ pos ++ [acc.length],
          p < (acc ++ [(fillBytes16 (nextU32 rng).2).1, b]).length := by
        intro p hp
        simp only [List.length_append, List.length_cons, List.length_nil]
        rcases List.mem_append.1 hp with h | h
        · have := hb p h; omega
        · simp at h; omega
      have hrm' : removeGo (acc ++ [(fillBytes16 (nextU32 rng).2).1, b])
          (pos ++ [acc.length]).reverse = .ok (realAcc ++ [b]) := by
        rw [List.reverse_append, List.reverse_singleton, List.singleton_append, removeGo,
          if_neg (by simp)]
        have herase : (acc ++ [(fillBytes16 (nextU32 rng).2).1, b]).eraseIdx acc.length =
            acc ++ [b] := by
          rw [List.eraseIdx_append_of_length_le (Nat.le_refl _)]
          simp
        rw [herase]
        exact htail [b]
      have := addPaddingGo_remove rest (fillBytes16 (nextU32 rng).2).2
        (acc ++ [(fillBytes16 (nextU32 rng).2).1, b]) (pos ++ [acc.length]) (realAcc ++ [b])
        hpair' hb' hrm'
      simpa using this
    · -- no decoy: `b` just passes under the cursor
      have hb' : ∀ p ∈ pos, p < (acc ++ [b]).length := by
        intro p hp
        simp only [List.length_append, List.length_cons, List.length_nil]
        have := hb p hp; omega
      have := addPaddingGo_remove rest (nextU32 rng).2 (acc ++ [b]) pos (realAcc ++ [b])
        hpair hb' (htail [b])
      simpa using this

/-- `remove_padding` inverts `add_padding` exactly. -/
theorem removePadding_addPadding (blocks : List Block) (rng : Rng) :
    removePadding (addPadding blocks rng).1 (addPadding blocks rng).2.1 = .ok blocks := by
  have h := addPaddingGo_remove blocks rng [] [] [] (by simp) (by simp) (by simp [removeGo])
  rcases h with ⟨hpair, _, hrm⟩
  rw [removePadding]
  simp only [addPadding]
  rw [sortDesc_of_lt_sorted _ hpair]
  simpa using hrm

/-- The recorded positions are strictly increasing and in range. -/
theorem addPadding_positions_incr (blocks : List Block) (rng : Rng) :
    ((addPadding blocks rng).2.1).Pairwise (· < ·) ∧
    (∀ p ∈ (addPadding blocks rng).2.1, p < (addPadding blocks rng).1.length) := by
  have h := addPaddingGo_remove blocks rng [] [] [] (by simp) (by simp) (by simp [removeGo])
  exact ⟨h.1, h.2.1⟩

/-- Every block of the padded output is 16 bytes when the inputs are. -/
theorem addPaddingGo_all16 : ∀ (rest : List Block) (rng : Rng) (acc : List Block)
    (pos : List Nat), (∀ b ∈ acc, b.length = 16) → (∀ b ∈ rest, b.length = 16) →
    ∀ b ∈ (addPaddingGo rng acc pos rest).1, b.length = 16
  | [], rng, acc, pos, hacc, _, b, hb => hacc b (by simpa [addPaddingGo] using hb)
  | x :: rest, rng, acc, pos, hacc, hrest, b, hb => by
    rw [addPaddingGo] at hb
    simp only [] at hb
    have hx : x.length = 16 := hrest x (by simp)
    have hpad : ((fillBytes16 (nextU32 rng).2).1).length = 16 := by
      simp [fillBytes16, nextU32, leBytes]
    split at hb
    · refine addPaddingGo_all16 rest _ _ _ ?_ (fun y hy => hrest y (by simp [hy])) b hb
      intro y hy
      rcases List.mem_append.1 hy with h | h
      · exact hacc y h
      · rcases List.mem_cons.1 h with rfl | h
        · exact hpad
        · simp at h; subst h; exact hx
    · refine addPaddingGo_all16 rest _ _ _ ?_ (fun y hy => hrest y (by simp [hy])) b hb
      intro y hy
      rcases List.mem_append.1 hy with h | h
      · exact hacc y h
      · simp at h; subst h; exact hx

theorem addPadding_all16 (blocks : List Block) (rng : Rng)
    (h : ∀ b ∈ blocks, b.length = 16) : ∀ b ∈ (addPadding blocks rng).1, b.length = 16 :=
  addPaddingGo_all16 blocks rng [] [] (by simp) h

/-- Each padding step adds exactly one block per recorded position. -/
theorem addPaddingGo_length : ∀ (rest : List Block) (rng : Rng) (acc : List Block)
    (pos : List Nat),
    (addPaddingGo rng acc pos rest).1.length + pos.length =
      acc.length + rest.length + (addPaddingGo rng acc pos rest).2.1.length
  | [], rng, acc, pos => by simp [addPaddingGo]
  | b :: rest, rng, acc, pos => by
    rw [addPaddingGo]
    simp only []
    split
    · have := addPaddingGo_length rest (fillBytes16 (nextU32 rng).2).2
        (acc ++ [(fillBytes16 (nextU32 rng).2).1, b]) (pos ++ [acc.length])
      simp at this ⊢
      omega
    · have := addPaddingGo_length rest (nextU32 rng).2 (acc ++ [b]) pos
      simp at this ⊢
      omega

/-! ### Fisher–Yates permutation lemmas -/

/-- Swapping the head with the `k`-th element is a permutation. -/
theorem head_set_perm : ∀ (t : List Nat) (k : Nat) (a : Nat), k < t.length →
    (t.getD k 0 :: t.set k a).Perm (a :: t)
  | [], k, _, hk => by simp at hk
  | b :: t', 0, a, _ => by
    simpa using List.Perm.swap a b t'
  | b :: t', k + 1, a, hk => by
    simp only [List.getD_cons_succ, List.set_cons_succ]
    have h1 : (t'.getD k 0 :: b :: t'.set k a).Perm (b :: t'.getD k 0 :: t'.set k a) :=
      List.Perm.swap b (t'.getD k 0) _
    have h2 : (b :: t'.getD k 0 :: t'.set k a).Perm (b :: a :: t') :=
      (head_set_perm t' k a (by simpa using hk)).cons b
    have h3 : (b :: a :: t').Perm (a :: b :: t') := List.Perm.swap a b t'
    exact (h1.trans h2).trans h3

/-- `perm.swap(i, j)` is a permutation of the list. -/
theorem listSwap_perm : ∀ (l : List Nat) (i j : Nat), i < l.length → j < l.length →
    (listSwap l i j).Perm l
  | [], i, _, hi, _ => by simp at hi
  | a :: t, 0, 0, _, _ => by simp [listSwap]
  | a :: t, 0, j + 1, _, hj => by
    simp only [listSwap, List.getD_cons_succ, List.getD_cons_zero, List.set_cons_zero,
      List.set_cons_succ]
    exact head_set_perm t j a (by simpa using hj)
  | a :: t, i + 1, 0, hi, _ => by
    simp only [listSwap, List.getD_cons_succ, List.getD_cons_zero, List.set_cons_succ,
      List.set_cons_zero]
    exact head_set_perm t i a (by simpa using hi)
  | a :: t, i + 1, j + 1, hi, hj => by
    simp only [listSwap, List.getD_cons_succ, List.set_cons_succ]
    exact (listSwap_perm t i j (by simpa using hi) (by simpa using hj)).cons a

theorem fyLoop_perm : ∀ (i : Nat) (rng : Rng) (perm : List Nat), i < perm.length →
    ((fyLoop rng perm i).1).Perm perm
  | 0, rng, perm, _ => by simp [fyLoop]
  | k + 1, rng, perm, hi => by
    rw [fyLoop]
    simp only [nextU32]
    have hj : (nextU32 rng).1 % (k + 2) < perm.length := by
      have h2 : (nextU32 rng).1 % (k + 2) < k + 2 := Nat.mod_lt _ (by omega)
      omega
    have hswap := listSwap_perm perm (k + 1) ((nextU32 rng).1 % (k + 2)) hi hj
    have hlen : (listSwap perm (k + 1) ((nextU32 rng).1 % (k + 2))).length = perm.length := by
      simp [listSwap]
    have hk : k < (listSwap perm (k + 1) ((nextU32 rng).1 % (k + 2))).length := by
      rw [hlen]; omega
    exact (fyLoop_perm k _ _ hk).trans hswap

theorem generatePermutation_perm (n : Nat) (rng : Rng) :
    ((generatePermutation n rng).1).Perm (List.range n) := by
  cases n with
  | zero => simp [generatePermutation, fyLoop]
  | succ m =>
    have hm : m < (List.range (m + 1)).length := by simp
    simpa [generatePermutation] using fyLoop_perm m rng (List.range (m + 1)) hm

theorem generatePermutation_length (n : Nat) (rng : Rng) :
    (generatePermutation n rng).1.length = n := by
  simpa using (generatePermutation_perm n rng).length_eq

theorem generatePermutation_nodup (n : Nat) (rng : Rng) :
    (generatePermutation n rng).1.Nodup :=
  (generatePermutation_perm n rng).nodup_iff.2 (List.nodup_range n)

theorem generatePermutation_mem_lt (n : Nat) (rng : Rng) :
    ∀ x ∈ (generatePermutation n rng).1, x < n := fun x hx =>
  List.mem_range.1 ((generatePermutation_perm n rng).mem_iff.1 hx)

/-! ### `apply_permutation` lemmas -/

theorem applyPermutation_isSome : ∀ (perm : List Nat) (blocks : List Block),
    (∀ idx ∈ perm, idx < blocks.length) → ∃ s, applyPermutation blocks perm = some s
  | [], _, _ => ⟨[], rfl⟩
  | idx :: rest, blocks, h => by
    rw [applyPermutation]
    have hidx : idx < blocks.length := h idx (by simp)
    rcases applyPermutation_isSome rest blocks (fun i hi => h i (by simp [hi])) with ⟨s, hs⟩
    rw [List.getElem?_eq_getElem hidx, hs]
    exact ⟨_, rfl⟩

theorem applyPermutation_length : ∀ (perm : List Nat) (blocks : List Block) (s : List Block),
    applyPermutation blocks perm = some s → s.length = perm.length
  | [], _, s, h => by
    rw [applyPermutation] at h
    cases h
    rfl
  | idx :: rest, blocks, s, h => by
    rw [applyPermutation] at h
    cases hg : blocks[idx]? with
    | none => rw [hg] at h; cases h
    | some b =>
      rw [hg] at h
      cases hr : applyPermutation blocks rest with
      | none => rw [hr] at h; cases h
      | some s' =>
        rw [hr] at h
        cases h
        simpa using applyPermutation_length rest blocks s' hr

theorem applyPermutation_getD : ∀ (perm : List Nat) (blocks : List Block) (s : List Block),
    applyPermutation blocks perm = some s →
    ∀ k, k < perm.length → s.getD k [] = blocks.getD (perm.getD k 0) []
  | [], _, _, _, k, hk => by simp at hk
  | idx :: rest, blocks, s, h, k, hk => by
    rw [applyPermutation] at h
    cases hg : blocks[idx]? with
    | none => rw [hg] at h; cases h
    | some b =>
      rw [hg] at h
      cases hr : applyPermutation blocks rest with
      | none => rw [hr] at h; cases h
      | some s' =>
        rw [hr] at h
        cases h
        cases k with
        | zero =>
          have hidx : idx < blocks.length := by
            by_contra hc
            rw [List.getElem?_eq_none (by omega)] at hg
            cases hg
          have : blocks[idx] = b := by
            rw [List.getElem?_eq_getElem hidx] at hg
            exact Option.some.inj hg
          simp only [List.getD_cons_zero]
          rw [List.getD_eq_getElem _ _ hidx, this]
        | succ m =>
          simpa using applyPermutation_getD rest blocks s' hr m (by simpa using hk)

theorem applyPermutation_mem : ∀ (perm : List Nat) (blocks : List Block) (s : List Block),
    applyPermutation blocks perm = some s → ∀ b ∈ s, b ∈ blocks
  | [], _, s, h, b, hb => by
    rw [applyPermutation] at h
    cases h
    simp at hb
  | idx :: rest, blocks, s, h, b, hb => by
    rw [applyPermutation] at h
    cases hg : blocks[idx]? with
    | none => rw [hg] at h; cases h
    | some x =>
      rw [hg] at h
      cases hr : applyPermutation blocks rest with
      | none => rw [hr] at h; cases h
      | some s' =>
        rw [hr] at h
        cases h
        rcases List.mem_cons.1 hb with rfl | hb'
        · exact List.getElem?_mem hg
        · exact applyPermutation_mem rest blocks s' hr b hb'

/-! ### `reverse_permutation` lemmas -/

theorem revGo_error_of_oob : ∀ (ps : List Nat) (restored bst : List Block) (i : Nat),
    (∃ p ∈ ps, bst.length ≤ p) → revGo restored bst i ps = .error .permRange
  | [], _, _, _, h => by simp at h
  | p0 :: rest, restored, bst, i, h => by
    rw [revGo]
    split
    · rfl
    · rename_i hlt
      rcases h with ⟨p, hp, hge⟩
      rcases List.mem_cons.1 hp with rfl | hmem
      · omega
      · exact revGo_error_of_oob rest _ _ _ ⟨p, hmem, by simpa using hge⟩

theorem revGo_spec : ∀ (ps : List Nat) (restored bst : List Block) (i : Nat),
    ps.Nodup → (∀ p ∈ ps, p < bst.length) → restored.length = bst.length →
    ∃ final, revGo restored bst i ps = .ok final ∧ final.length = restored.length ∧
      (∀ j, j ∉ ps → final.getD j [] = restored.getD j []) ∧
      (∀ k, k < ps.length → final.getD (ps.getD k 0) [] = bst.getD (i + k) [])
  | [], restored, _, _, _, _, _ =>
    ⟨restored, by simp [revGo], rfl, fun _ _ => rfl, fun k hk => by simp at hk⟩
  | p :: rest, restored, bst, i, hnd, hb, hlen => by
    have hp : p < bst.length := hb p (by simp)
    rcases List.nodup_cons.1 hnd with ⟨hpnot, hndrest⟩
    have hb' : ∀ q ∈ rest, q < (bst.set i (restored.getD p [])).length := by
      intro q hq
      simpa using hb q (by simp [hq])
    have hlen' : (restored.set p (bst.getD i [])).length =
        (bst.set i (restored.getD p [])).length := by
      simpa using hlen
    rcases revGo_spec rest (restored.set p (bst.getD i []))
      (bst.set i (restored.getD p [])) (i + 1) hndrest hb' hlen' with
      ⟨final, hfin, hflen, hoff, hon⟩
    refine ⟨final, ?_, ?_, ?_, ?_⟩
    · rw [revGo, if_neg (by omega)]
      exact hfin
    · rw [hflen]; simp
    · intro j hj
      have hjp : j ≠ p := fun hc => hj (hc ▸ List.mem_cons_self p rest)
      have hjrest : j ∉ rest := fun hc => hj (List.mem_cons_of_mem p hc)
      rw [hoff j hjrest, getD_set_ne (fun hc => hjp hc.symm)]
    · intro k hk
      cases k with
      | zero =>
        have : final.getD p [] = (restored.set p (bst.getD i [])).getD p [] :=
          hoff p hpnot
        rw [List.getD_cons_zero, this, getD_set_self (by omega)]
        simp
      | succ m =>
        have hm : m < rest.length := by simpa using hk
        have := hon m hm
        rw [List.getD_cons_succ, this, getD_set_ne (by omega)]
        congr 1
        omega

/-- Pigeonhole: `n` distinct naturals below `n` contain every `j < n`. -/
theorem mem_of_nodup_bounded (perm : List Nat) (n : Nat) (hlen : perm.length = n)
    (hnd : perm.Nodup) (hmem : ∀ x ∈ perm, x < n) {j : Nat} (hj : j < n) : j ∈ perm := by
  have hsub : perm.toFinset ⊆ Finset.range n := by
    intro x hx
    exact Finset.mem_range.2 (hmem x (List.mem_toFinset.1 hx))
  have hcard : perm.toFinset.card = n := by
    rw [List.toFinset_card_of_nodup hnd, hlen]
  have heq : perm.toFinset = Finset.range n :=
    Finset.eq_of_subset_of_card_le hsub (by simp [hcard])
  have : j ∈ perm.toFinset := heq ▸ Finset.mem_range.2 hj
  exact List.mem_toFinset.1 this

/-- Inverting the applied permutation recovers the original block list. -/
theorem reversePermutation_applyPermutation (blocks : List Block) (perm : List Nat)
    (hlen : perm.length = blocks.length) (hnd : perm.Nodup)
    (hmem : ∀ x ∈ perm, x < blocks.length) (s : List Block)
    (happ : applyPermutation blocks perm = some s) :
    reversePermutation s perm = .ok blocks := by
  have hslen : s.length = perm.length := applyPermutation_length perm blocks s happ
  rw [reversePermutation, if_neg (by omega)]
  have hmem' : ∀ p ∈ perm, p < s.length := by
    intro p hp
    rw [hslen, hlen]
    exact hmem p hp
  rcases revGo_spec perm (List.replicate s.length []) s 0 hnd hmem' (by simp) with
    ⟨final, hfin, hflen, _, hon⟩
  have hfb : final = blocks := by
    apply List.ext_getElem
    · rw [hflen]
      simp [hslen, hlen]
    · intro j h1 h2
      have hjperm : j ∈ perm := mem_of_nodup_bounded perm blocks.length hlen hnd hmem h2
      rcases List.getElem_of_mem hjperm with ⟨k, hkl, hkj⟩
      have hgd : perm.getD k 0 = j := by
        rw [List.getD_eq_getElem _ _ hkl, hkj]
      have h3 := hon k hkl
      rw [hgd] at h3
      have h4 := applyPermutation_getD perm blocks s happ k hkl
      rw [hgd] at h4
      have : final.getD j [] = blocks.getD j [] := by
        rw [h3]
        simpa using h4
      rwa [List.getD_eq_getElem _ _ h1, List.getD_eq_getElem _ _ h2] at this
  rw [hfin, hfb]

/-! ### Decimal digits and the canonical serializer/parser -/

theorem natDigitsF_stable (f : Nat) : ∀ n, n ≤ f → natDigitsF f n = natDigitsF n n := by
  induction f using Nat.strong_induction_on with
  | _ f ih =>
    intro n hn
    match f with
    | 0 =>
      have : n = 0 := by omega
      subst this
      rfl
    | fl + 1 =>
      rw [natDigitsF]
      by_cases h10 : n < 10
      · rw [if_pos h10]
        match n with
        | 0 => rfl
        | m + 1 => rw [natDigitsF, if_pos h10]
      · rw [if_neg h10]
        obtain ⟨m, rfl⟩ : ∃ m, n = m + 1 := ⟨n - 1, by omega⟩
        conv_rhs => rw [natDigitsF, if_neg h10]
        have hd1 : (m + 1) / 10 ≤ fl := by omega
        have hd2 : (m + 1) / 10 ≤ m := by omega
        rw [ih fl (by omega) _ hd1, ih m (by omega) _ hd2]

theorem natDigitsF_digits : ∀ (fuel n : Nat), ∀ d ∈ natDigitsF fuel n, 48 ≤ d ∧ d ≤ 57
  | 0, n, d, hd => by
    simp [natDigitsF] at hd
    have := Nat.mod_lt n (show 0 < 10 by omega)
    omega
  | fuel + 1, n, d, hd => by
    rw [natDigitsF] at hd
    split at hd
    · simp at hd
      omega
    · rcases List.mem_append.1 hd with h | h
      · exact natDigitsF_digits fuel _ d h
      · simp at h
        have := Nat.mod_lt n (show 0 < 10 by omega)
        omega

theorem natDigits_ne_nil : ∀ n : Nat, natDigits n ≠ []
  | 0 => by simp [natDigits, natDigitsF]
  | n + 1 => by
    rw [natDigits, natDigitsF]
    split
    · simp
    · simp

theorem natDigits_foldl (n : Nat) :
    (natDigits n).foldl (fun a d => a * 10 + (d - 48)) 0 = n := by
  induction n using Nat.strong_induction_on with
  | _ n ih =>
    by_cases h10 : n < 10
    · match n, h10 with
      | 0, _ => rfl
      | m + 1, h10 => rw [natDigits, natDigitsF, if_pos h10]; simp
    · obtain ⟨m, rfl⟩ : ∃ m, n = m + 1 := ⟨n - 1, by omega⟩
      rw [natDigits, natDigitsF, if_neg h10,
        natDigitsF_stable m ((m + 1) / 10) (by omega), List.foldl_append]
      rw [show natDigitsF ((m + 1) / 10) ((m + 1) / 10) = natDigits ((m + 1) / 10) from rfl]
      rw [ih ((m + 1) / 10) (by omega)]
      simp only [List.foldl_cons, List.foldl_nil]
      omega

theorem natDigits_isDigit (n : Nat) : ∀ d ∈ natDigits n, isDigitByte d = true := by
  intro d hd
  have := natDigitsF_digits n n d hd
  simp [isDigitByte]
  omega

theorem takeWhile_digits_append : ∀ (ds rest : Bytes),
    (∀ d ∈ ds, isDigitByte d = true) →
    (rest = [] ∨ isDigitByte (rest.headD 0) = false) →
    (ds ++ rest).takeWhile isDigitByte = ds ∧ (ds ++ rest).dropWhile isDigitByte = rest
  | [], rest, _, hrest => by
    rcases hrest with rfl | h
    · simp
    · cases rest with
      | nil => simp
      | cons r rs =>
        simp at h
        simp [List.takeWhile_cons, List.dropWhile_cons, h]
  | d :: ds, rest, hds, hrest => by
    have hd : isDigitByte d = true := hds d (by simp)
    have := takeWhile_digits_append ds rest (fun x hx => hds x (by simp [hx])) hrest
    simp [List.takeWhile_cons, List.dropWhile_cons, hd, this]

theorem parseNat_digits (n : Nat) (rest : Bytes)
    (hrest : rest = [] ∨ isDigitByte (rest.headD 0) = false) :
    parseNat (natDigits n ++ rest) = some (n, rest) := by
  rcases takeWhile_digits_append (natDigits n) rest (natDigits_isDigit n) hrest with ⟨ht, hdp⟩
  rw [parseNat]
  simp only [ht, hdp]
  rw [if_neg (by simpa using natDigits_ne_nil n)]
  rw [natDigits_foldl]

theorem commaDigits_flatten_length (xs : List Nat) :
    2 * xs.length ≤ ((xs.map (fun y => 44 :: natDigits y)).flatten).length := by
  induction xs with
  | nil => simp
  | cons x xs ih =>
    have h1 : 1 ≤ (natDigits x).length :=
      List.length_pos.2 (natDigits_ne_nil x)
    simp only [List.map_cons, List.flatten_cons, List.length_append, List.length_cons]
    omega

theorem parseNatListTail_ser : ∀ (xs : List Nat) (fuel : Nat) (rest : Bytes),
    xs.length ≤ fuel →
    parseNatListTail fuel ((xs.map (fun y => 44 :: natDigits y)).flatten ++ 93 :: rest) =
      some (xs, rest)
  | [], fuel, rest, _ => by
    simp only [List.map_nil, List.flatten_nil, List.nil_append]
    rw [parseNatListTail.eq_def]
    simp
  | x :: xs, fuel, rest, hf => by
    simp only [List.map_cons, List.flatten_cons, List.cons_append, List.append_assoc]
    obtain ⟨f, rfl⟩ : ∃ f, fuel = f + 1 := ⟨fuel - 1, by simp at hf; omega⟩
    rw [parseNatListTail.eq_def]
    simp only [show ¬(44 : Nat) = 93 by omega, if_false, if_pos rfl, if_neg]
    have hhead : (xs.map (fun y => 44 :: natDigits y)).flatten ++ 93 :: rest = [] ∨
        isDigitByte (((xs.map (fun y => 44 :: natDigits y)).flatten ++ 93 :: rest).headD 0)
          = false := by
      right
      cases xs with
      | nil => simp [isDigitByte]
      | cons y ys => simp [isDigitByte]
    rw [parseNat_digits x _ hhead]
    simp only [Option.bind_eq_bind, Option.some_bind]
    rw [parseNatListTail_ser xs f rest (by simp at hf; omega)]
    rfl

theorem parseNatList_ser (l : List Nat) (rest : Bytes) :
    parseNatList (serNatList l ++ rest) = some (l, rest) := by
  cases l with
  | nil =>
    rw [serNatList]
    simp only [List.cons_append, List.nil_append]
    rw [parseNatList, if_pos rfl, if_pos rfl]
  | cons x xs =>
    rw [serNatList]
    obtain ⟨d, ds, hds⟩ : ∃ d ds, natDigits x = d :: ds := by
      match h : natDigits x with
      | [] => exact absurd h (natDigits_ne_nil x)
      | d :: ds => exact ⟨d, ds, rfl⟩
    have hdd : 48 ≤ d ∧ d ≤ 57 := natDigitsF_digits x x d (by rw [← natDigits, hds]; simp)
    simp only [List.cons_append, List.append_assoc, List.singleton_append, List.nil_append, hds]
    rw [parseNatList, if_pos rfl, if_neg (by omega)]
    have hrw : d :: (ds ++ ((xs.map (fun y => 44 :: natDigits y)).flatten ++ 93 :: rest)) =
        natDigits x ++ ((xs.map (fun y => 44 :: natDigits y)).flatten ++ 93 :: rest) := by
      rw [hds]
      simp
    rw [hrw]
    have hhead : (xs.map (fun y => 44 :: natDigits y)).flatten ++ 93 :: rest = [] ∨
        isDigitByte (((xs.map (fun y => 44 :: natDigits y)).flatten ++ 93 :: rest).headD 0)
          = false := by
      right
      cases xs with
      | nil => simp [isDigitByte]
      | cons y ys => simp [isDigitByte]
    rw [parseNat_digits x _ hhead]
    simp only [Option.bind_eq_bind, Option.some_bind]
    have hlen : xs.length ≤ ((xs.map (fun y => 44 :: natDigits y)).flatten ++ 93 :: rest).length := by
      have h2 := commaDigits_flatten_length xs
      rw [List.length_append]
      omega
    rw [parseNatListTail_ser xs _ rest hlen]
    rfl

theorem expectLit_append (pat r : Bytes) : expectLit pat (pat ++ r) = some r := by
  rw [expectLit, if_pos (List.take_left pat r), List.drop_left]

theorem canonicalDeser_serMeta (m : Metadata) : canonicalDeser (serMeta m) = some m := by
  have e1 : serMeta m = litOriginalLen ++ (natDigits m.original_len ++ (litPermutation ++
      (serNatList m.permutation ++ (litPaddingPositions ++
        (serNatList m.padding_positions ++ [125]))))) := by
    rw [serMeta]
    simp [List.append_assoc]
  rw [e1, canonicalDeser]
  rw [expectLit_append]
  simp only [Option.bind_eq_bind, Option.some_bind]
  rw [parseNat_digits m.original_len _ (by right; simp [litPermutation, isDigitByte])]
  simp only [Option.some_bind]
  rw [expectLit_append]
  simp only [Option.some_bind]
  rw [parseNatList_ser]
  simp only [Option.some_bind]
  rw [expectLit_append]
  simp only [Option.some_bind]
  rw [parseNatList_ser]
  simp only [Option.some_bind]
  have h125 : expectLit [125] [125] = some ([] : Bytes) := rfl
  rw [h125]
  simp only [Option.some_bind]
  rfl

/-! ### Serialized length lower bounds (for the 16-bit length field) -/

theorem serNatList_length_ge (l : List Nat) : 2 * l.length + 1 ≤ (serNatList l).length := by
  cases l with
  | nil => simp [serNatList]
  | cons x xs =>
    have h1 : 1 ≤ (natDigits x).length := List.length_pos.2 (natDigits_ne_nil x)
    have h2 := commaDigits_flatten_length xs
    rw [serNatList]
    simp only [List.length_cons, List.length_append]
    omega

theorem serMeta_length_ge (m : Metadata) :
    2 * m.permutation.length + 1 ≤ (serMeta m).length := by
  have := serNatList_length_ge m.permutation
  rw [serMeta]
  simp only [List.length_append]
  omega

/-! ### Re-splitting the concatenated block region -/

theorem resplit_flatten : ∀ (bs : List Block), (∀ b ∈ bs, b.length = 16) →
    (List.range bs.length).map (fun i => ((mergeBlocks bs).drop (i * 16)).take 16) = bs
  | [], _ => by simp
  | b :: rest, h => by
    have hb : b.length = 16 := h b (by simp)
    have hrest : ∀ x ∈ rest, x.length = 16 := fun x hx => h x (by simp [hx])
    have ih := resplit_flatten rest hrest
    simp only [mergeBlocks] at ih ⊢
    rw [List.length_cons, List.range_succ_eq_map, List.map_cons, List.map_map]
    have hhead : (((b :: rest).flatten).drop (0 * 16)).take 16 = b := by
      simp only [Nat.zero_mul, List.drop_zero, List.flatten_cons]
      rw [← hb, List.take_left]
    have htail : (List.range rest.length).map
        ((fun i => (((b :: rest).flatten).drop (i * 16)).take 16) ∘ Nat.succ) =
        (List.range rest.length).map (fun i => ((rest.flatten).drop (i * 16)).take 16) := by
      apply List.map_congr_left
      intro i _
      simp only [Function.comp_apply, List.flatten_cons]
      have h1 : Nat.succ i * 16 = b.length + i * 16 := by rw [hb]; omega
      rw [h1, List.drop_append]
    rw [htail, ih]
    simp only [Nat.zero_mul, List.drop_zero, List.flatten_cons]
    rw [← hb, List.take_left]

/-! ### Composition of `encrypt` and `decrypt` -/

theorem encShuffled_isSome (c : Crypto) (key n1 P : Bytes) :
    ∃ s, encShuffled c key n1 P = some s ∧ s.length = (encBlocks c key n1 P).length := by
  have hmem := generatePermutation_mem_lt (encBlocks c key n1 P).length (deriveRng c key)
  rcases applyPermutation_isSome (encPermutation c key n1 P) (encBlocks c key n1 P)
    (fun idx h => hmem idx h) with ⟨s, hs⟩
  refine ⟨s, hs, ?_⟩
  rw [applyPermutation_length _ _ _ hs, encPermutation,
    generatePermutation_length]

theorem encrypt_eq (c : Crypto) (key n1 n2 P : Bytes) :
    encrypt c key n1 n2 P =
      if 65535 < (encEncryptedMetadata c key n1 n2 P).length then .error .metadataTooLong
      else .ok ([(encEncryptedMetadata c key n1 n2 P).length / 256 % 256,
                 (encEncryptedMetadata c key n1 n2 P).length % 256] ++
                encEncryptedMetadata c key n1 n2 P ++
                mergeBlocks (encPaddedBlocks c key n1 P)) := by
  rcases encShuffled_isSome c key n1 P with ⟨s, hs, _⟩
  rw [encrypt, hs]

theorem aesDecrypt_aesEncrypt (c : Crypto) (key nonce pt : Bytes)
    (h12 : nonce.length = 12) (hrt : AeadRoundTrip c key) :
    aesDecrypt c key (aesEncrypt c key nonce pt) = .ok pt := by
  rw [aesEncrypt, aesDecrypt, if_neg (by simp [h12]), List.take_left' h12,
    List.drop_left' h12, hrt]

/-- Parsing a well-formed frame: the header and region extraction of
`decrypt`, for a frame assembled as `encrypt` does. -/
theorem decrypt_frame (c : Crypto) (key EM BD : Bytes) (hle : EM.length ≤ 65535) :
    decrypt c key ([EM.length / 256 % 256, EM.length % 256] ++ EM ++ BD) =
      match aesDecrypt c key EM with
      | .error e => .error e
      | .ok mb =>
        match c.deserMeta mb with
        | none => .error .metadataParse
        | some md => decryptBlocks c key md BD := by
  have hform : [EM.length / 256 % 256, EM.length % 256] ++ EM ++ BD =
      (EM.length / 256 % 256) :: (EM.length % 256) :: (EM ++ BD) := by
    simp
  rw [hform, decrypt]
  have hlen : ((EM.length / 256 % 256) :: (EM.length % 256) :: (EM ++ BD)).length =
      2 + EM.length + BD.length := by
    simp
    omega
  rw [if_neg (by omega)]
  simp only [List.getD_cons_zero, List.getD_cons_succ]
  have hmeta : EM.length / 256 % 256 * 256 + EM.length % 256 = EM.length := by
    omega
  rw [hmeta, if_neg (by omega)]
  have hdrop2 : ((EM.length / 256 % 256) :: (EM.length % 256) :: (EM ++ BD)).drop 2 =
      EM ++ BD := rfl
  have hdropEnd : ((EM.length / 256 % 256) :: (EM.length % 256) :: (EM ++ BD)).drop
      (2 + EM.length) = BD := by
    have h2 : 2 + EM.length = EM.length + 1 + 1 := by omega
    rw [h2, List.drop_succ_cons, List.drop_succ_cons, List.drop_left]
  rw [hdrop2, hdropEnd, List.take_left]

/-- The block-region part of `decrypt` on a concatenation of 16-byte
blocks, once padding removal and permutation inversion are known. -/
theorem decryptBlocks_ok (c : Crypto) (key : Bytes) (md : Metadata)
    (padded shuffled blocks0 : List Block)
    (hall : ∀ b ∈ padded, b.length = 16)
    (hrm : removePadding padded md.padding_positions = .ok shuffled)
    (hrev : reversePermutation shuffled md.permutation = .ok blocks0)
    (hlen : md.original_len ≤ (mergeBlocks blocks0).length) :
    decryptBlocks c key md (mergeBlocks padded) =
      (aesDecrypt c key ((mergeBlocks blocks0).take md.original_len)).map
        (privateDecrypt c key) := by
  have hbd : (mergeBlocks padded).length = 16 * padded.length :=
    flatten_length_of_all16 padded hall
  rw [decryptBlocks]
  have hcount : (mergeBlocks padded).length / 16 = padded.length := by
    rw [hbd]
    omega
  rw [hcount, if_neg (by omega)]
  rw [resplit_flatten padded hall]
  simp only [hrm, hrev]
  rw [if_neg (by omega)]
  cases h : aesDecrypt c key ((mergeBlocks blocks0).take md.original_len) with
  | error e => rfl
  | ok a => rfl

/-- All real blocks (after split, shuffle) are 16-byte. -/
theorem encShuffled_all16 (c : Crypto) (key n1 P : Bytes) (s : List Block)
    (hs : encShuffled c key n1 P = some s) : ∀ b ∈ s, b.length = 16 := by
  intro b hb
  have hmem := applyPermutation_mem _ _ _ hs b hb
  exact splitIntoBlocks_all16 _ b hmem

/-- Decrypting a frame assembled from the encrypted metadata of
`encrypt` and ANY block region whose padding removal yields the shuffled
blocks recovers the original plaintext.  (Instantiated with the genuine
padded blocks for the round-trip, and with a decoy-tampered block region
for the tamper analysis.) -/
theorem decrypt_assembled_frame (c : Crypto) (key n1 n2 P : Bytes) (padded' : List Block)
    (hs : Sha256Len c) (hrt : AeadRoundTrip c key) (hdes : DeserRoundTrip c)
    (h1 : n1.length = 12) (h2 : n2.length = 12)
    (hlim : (encEncryptedMetadata c key n1 n2 P).length ≤ 65535)
    (hall : ∀ b ∈ padded', b.length = 16)
    (hrm : removePadding padded' (encryptMetadata c key n1 P).padding_positions =
      .ok ((encShuffled c key n1 P).getD [])) :
    decrypt c key ([(encEncryptedMetadata c key n1 n2 P).length / 256 % 256,
        (encEncryptedMetadata c key n1 n2 P).length % 256] ++
      encEncryptedMetadata c key n1 n2 P ++ mergeBlocks padded') = .ok P := by
  rw [decrypt_frame c key _ _ hlim]
  rw [encEncryptedMetadata, aesDecrypt_aesEncrypt c key n2 _ h2 hrt]
  have hdes' : ∀ m, c.deserMeta (serMeta m) = some m := hdes
  simp only [hdes']
  rcases encShuffled_isSome c key n1 P with ⟨s, hsome, hslen⟩
  have hgd : (encShuffled c key n1 P).getD [] = s := by
    rw [hsome]
    rfl
  rw [hgd] at hrm
  have hrev : reversePermutation s (encryptMetadata c key n1 P).permutation =
      .ok (encBlocks c key n1 P) := by
    rw [encryptMetadata]
    refine reversePermutation_applyPermutation (encBlocks c key n1 P)
      (encPermutation c key n1 P) ?_ ?_ ?_ s hsome
    · rw [encPermutation, generatePermutation_length]
    · rw [encPermutation]
      exact generatePermutation_nodup _ _
    · rw [encPermutation]
      exact generatePermutation_mem_lt _ _
  have hml : (encryptMetadata c key n1 P).original_len ≤
      (mergeBlocks (encBlocks c key n1 P)).length := by
    have holen : (encryptMetadata c key n1 P).original_len =
        (encAeadCiphertext c key n1 P).length := rfl
    have h16 := flatten_length_of_all16 _ (splitIntoBlocks_all16 (encAeadCiphertext c key n1 P))
    rw [holen, encBlocks, h16, splitIntoBlocks_length]
    omega
  rw [decryptBlocks_ok c key _ _ s (encBlocks c key n1 P) hall hrm hrev hml]
  have htake : (mergeBlocks (encBlocks c key n1 P)).take
      (encryptMetadata c key n1 P).original_len = encAeadCiphertext c key n1 P := by
    have holen : (encryptMetadata c key n1 P).original_len =
        (encAeadCiphertext c key n1 P).length := rfl
    rw [holen]
    simp only [mergeBlocks, encBlocks, splitIntoBlocks]
    exact splitGo_flatten_take _ _ (Nat.le_refl _)
  rw [htake, encAeadCiphertext, aesDecrypt_aesEncrypt c key n1 _ h1 hrt]
  rw [Except.map, privateDecrypt_privateEncrypt c key P hs]

/-- The genuine padded block region satisfies the premises of
`decrypt_assembled_frame`. -/
theorem encPaddedBlocks_all16 (c : Crypto) (key n1 P : Bytes) :
    ∀ b ∈ encPaddedBlocks c key n1 P, b.length = 16 := by
  rcases encShuffled_isSome c key n1 P with ⟨s, hsome, _⟩
  rw [encPaddedBlocks, hsome]
  exact addPadding_all16 s _ (encShuffled_all16 c key n1 P s hsome)

theorem removePadding_encPaddedBlocks (c : Crypto) (key n1 P : Bytes) :
    removePadding (encPaddedBlocks c key n1 P)
      (encryptMetadata c key n1 P).padding_positions =
      .ok ((encShuffled c key n1 P).getD []) := by
  have hpos : (encryptMetadata c key n1 P).padding_positions =
      encPaddingPositions c key n1 P := rfl
  rw [hpos, encPaddedBlocks, encPaddingPositions]
  exact removePadding_addPadding _ _

/-- Round-trip core: `decrypt` inverts `encrypt` whenever `encrypt`
produced a frame, under the external primitives' contracts. -/
theorem decrypt_encrypt_core (c : Crypto) (key n1 n2 P F : Bytes)
    (hs : Sha256Len c) (hrt : AeadRoundTrip c key) (hdes : DeserRoundTrip c)
    (h1 : n1.length = 12) (h2 : n2.length = 12)
    (henc : encrypt c key n1 n2 P = .ok F) :
    decrypt c key F = .ok P := by
  rw [encrypt_eq] at henc
  by_cases hlim : 65535 < (encEncryptedMetadata c key n1 n2 P).length
  · rw [if_pos hlim] at henc
    cases henc
  · rw [if_neg hlim] at henc
    have hF := (Except.ok.inj henc).symm
    subst hF
    exact decrypt_assembled_frame c key n1 n2 P _ hs hrt hdes h1 h2 (by omega)
      (encPaddedBlocks_all16 c key n1 P) (removePadding_encPaddedBlocks c key n1 P)

/-! ### Contracts hold for the toy instance -/

theorem toy_sha256_len : Sha256Len toyCrypto := by
  intro x
  simp [toyCrypto]

theorem toy_aead_round_trip (key : Bytes) : AeadRoundTrip toyCrypto key := by
  intro n p
  simp only [toyCrypto]
  have hsub : (p ++ List.replicate 16 (0 : Nat)).length - 16 = p.length := by simp
  rw [if_pos ⟨by simp, by rw [hsub, List.drop_left' rfl]⟩, hsub, List.take_left' rfl]

theorem toy_aead_len : AeadLen toyCrypto := by
  intro k n p
  simp [toyCrypto]

theorem toy_deser_round_trip : DeserRoundTrip toyCrypto := fun m =>
  canonicalDeser_serMeta m

/-! ### Single-byte tampering inside the block region -/

/-- Overwriting byte `bIdx * 16 + o` of the concatenated block region
overwrites byte `o` of block `bIdx`. -/
theorem flatten_set : ∀ (bs : List Block) (bIdx o v : Nat),
    (∀ b ∈ bs, b.length = 16) → bIdx < bs.length → o < 16 →
    (mergeBlocks bs).set (bIdx * 16 + o) v =
      mergeBlocks (bs.set bIdx ((bs.getD bIdx []).set o v))
  | [], bIdx, _, _, _, hb, _ => by simp at hb
  | b :: rest, 0, o, v, hall, _, ho => by
    have hb : b.length = 16 := hall b (by simp)
    simp only [mergeBlocks, List.flatten_cons, Nat.zero_mul, Nat.zero_add,
      List.getD_cons_zero, List.set_cons_zero]
    rw [List.set_append_left _ _ (by omega)]
  | b :: rest, k + 1, o, v, hall, hb, ho => by
    have hb16 : b.length = 16 := hall b (by simp)
    have hrest : ∀ x ∈ rest, x.length = 16 := fun x hx => hall x (by simp [hx])
    have hk : k < rest.length := by simpa using hb
    simp only [mergeBlocks, List.flatten_cons, List.getD_cons_succ, List.set_cons_succ]
    rw [List.set_append_right _ _ (by omega)]
    have harith : (k + 1) * 16 + o - b.length = k * 16 + o := by
      rw [hb16]
      omega
    rw [harith]
    have ih := flatten_set rest k o v hrest hk ho
    simp only [mergeBlocks] at ih
    rw [ih]

/-- Removing a strictly-descending list of in-range positions ignores the
content of a block whose index is among the removed positions. -/
theorem removeGo_set_removed : ∀ (ps : List Nat) (bs : List Block) (bIdx : Nat) (x : Block),
    bIdx ∈ ps → ps.Pairwise (· > ·) → (∀ p ∈ ps, p < bs.length) →
    removeGo (bs.set bIdx x) ps = removeGo bs ps
  | [], _, _, _, hmem, _, _ => by simp at hmem
  | p :: rest, bs, bIdx, x, hmem, hpair, hb => by
    rcases List.pairwise_cons.1 hpair with ⟨hgt, hrest⟩
    have hp : p < bs.length := hb p (by simp)
    rw [removeGo, removeGo, if_neg (by simp; omega), if_neg (by omega)]
    rcases List.mem_cons.1 hmem with rfl | hmem'
    · rw [eraseIdx_set_self]
    · have hlt : bIdx < p := hgt bIdx hmem'
      rw [eraseIdx_set_of_lt bs x hlt]
      refine removeGo_set_removed rest (bs.eraseIdx p) bIdx x hmem' hrest ?_
      intro q hq
      rw [List.length_eraseIdx_of_lt hp]
      have := hgt q hq
      omega

/-- `remove_padding` of the padded output is unaffected by overwriting
the content of a recorded decoy block. -/
theorem removePadding_set_decoy (blocks : List Block) (rng : Rng) (bIdx : Nat) (x : Block)
    (hmem : bIdx ∈ (addPadding blocks rng).2.1) :
    removePadding ((addPadding blocks rng).1.set bIdx x) (addPadding blocks rng).2.1 =
      removePadding (addPadding blocks rng).1 (addPadding blocks rng).2.1 := by
  rcases addPadding_positions_incr blocks rng with ⟨hincr, hbound⟩
  rw [removePadding, removePadding, sortDesc_of_lt_sorted _ hincr]
  exact removeGo_set_removed (addPadding blocks rng).2.1.reverse _ bIdx x
    (List.mem_reverse.2 hmem) (by rw [List.pairwise_reverse]; exact hincr)
    (fun p hp => hbound p (List.mem_reverse.1 hp))

/-! ### Hex key-format lemmas -/

theorem hexDecode_odd : ∀ s : Bytes, s.length % 2 = 1 → hexDecode s = none
  | [], h => by simp at h
  | [_], _ => rfl
  | a :: b :: rest, h => by
    have hr : rest.length % 2 = 1 := by
      simp only [List.length_cons] at h
      omega
    rw [hexDecode, hexDecode_odd rest hr]
    cases hexVal a <;> cases hexVal b <;> rfl

theorem hexDecode_mem_none : ∀ (s : Bytes) (x : Nat), x ∈ s → hexVal x = none →
    hexDecode s = none
  | [], _, hx, _ => by simp at hx
  | [_], _, _, _ => rfl
  | a :: b :: rest, x, hx, hv => by
    rw [hexDecode]
    rcases List.mem_cons.1 hx with rfl | hx'
    · rw [hv]
    · rcases List.mem_cons.1 hx' with rfl | hx''
      · rw [hv]
        cases hexVal a <;> cases hexDecode rest <;> rfl
      · rw [hexDecode_mem_none rest x hx'' hv]
        cases hexVal a <;> cases hexVal b <;> rfl

theorem hexDecode_length : ∀ (s bs : Bytes), hexDecode s = some bs → s.length = 2 * bs.length
  | [], bs, h => by
    rw [hexDecode] at h
    cases h
    simp
  | [_], _, h => by cases h
  | a :: b :: rest, bs, h => by
    rw [hexDecode] at h
    cases ha : hexVal a with
    | none => rw [ha] at h; cases h
    | some hv =>
      cases hb : hexVal b with
      | none => rw [ha, hb] at h; cases h
      | some lv =>
        cases hr : hexDecode rest with
        | none => rw [ha, hb, hr] at h; cases h
        | some bs' =>
          rw [ha, hb, hr] at h
          cases h
          have := hexDecode_length rest bs' hr
          simp only [List.length_cons]
          omega

theorem hexDecode_total : ∀ s : Bytes, s.length % 2 = 0 → (∀ x ∈ s, (hexVal x).isSome = true) →
    ∃ bs, hexDecode s = some bs
  | [], _, _ => ⟨[], rfl⟩
  | [_], h, _ => by simp at h
  | a :: b :: rest, h, hall => by
    rcases Option.isSome_iff_exists.1 (hall a (by simp)) with ⟨hv, ha⟩
    rcases Option.isSome_iff_exists.1 (hall b (by simp)) with ⟨lv, hbv⟩
    rcases hexDecode_total rest (by simp only [List.length_cons] at h; omega)
      (fun x hx => hall x (by simp [hx])) with ⟨bs', hr⟩
    exact ⟨(hv * 16 + lv) :: bs', by rw [hexDecode, ha, hbv, hr]⟩

theorem hexVal_le_15 (x v : Nat) (h : hexVal x = some v) : v ≤ 15 := by
  rw [hexVal] at h
  split_ifs at h <;> (cases h; omega)

theorem hexDigit_hexVal (x v : Nat) (h : hexVal x = some v) :
    hexDigit v = lowerByte x := by
  rw [hexVal] at h
  rw [hexDigit, lowerByte]
  split_ifs at h <;> cases h <;> split_ifs <;> omega

theorem hexEncode_hexDecode : ∀ (s bs : Bytes), hexDecode s = some bs →
    hexEncode bs = s.map lowerByte
  | [], bs, h => by
    rw [hexDecode] at h
    cases h
    rfl
  | [_], _, h => by cases h
  | a :: b :: rest, bs, h => by
    rw [hexDecode] at h
    cases ha : hexVal a with
    | none => rw [ha] at h; cases h
    | some hv =>
      cases hb : hexVal b with
      | none => rw [ha, hb] at h; cases h
      | some lv =>
        cases hr : hexDecode rest with
        | none => rw [ha, hb, hr] at h; cases h
        | some bs' =>
          rw [ha, hb, hr] at h
          cases h
          have hhv := hexVal_le_15 a hv ha
          have hlv := hexVal_le_15 b lv hb
          have hdiv : (hv * 16 + lv) / 16 = hv := by omega
          have hmod : (hv * 16 + lv) % 16 = lv := by omega
          simp only [hexEncode, List.map_cons, List.flatten_cons]
          rw [hdiv, hmod, hexDigit_hexVal a hv ha, hexDigit_hexVal b lv hb]
          have ih := hexEncode_hexDecode rest bs' hr
          simp only [hexEncode] at ih
          rw [ih]
          rfl

/-! ## The claims -/

/-- C1: For every byte sequence `P` (including the empty sequence) and
every valid 32-byte key `K`, decrypting the frame produced by
`encrypt(P)` under the same key returns exactly `P`.  (The nonces drawn
from `OsRng` are the explicit 12-byte arguments; the external crates
satisfy their documented contracts.) -/
theorem c1_round_trip (c : Crypto) (key n1 n2 P F : Bytes)
    (hsha : Sha256Len c) (hrt : AeadRoundTrip c key) (hdes : DeserRoundTrip c)
    (h1 : n1.length = 12) (h2 : n2.length = 12)
    (henc : encrypt c key n1 n2 P = .ok F) :
    decrypt c key F = .ok P :=
  decrypt_encrypt_core c key n1 n2 P F hsha hrt hdes h1 h2 henc

set_option maxRecDepth 10000 in
theorem c1_round_trip_witness :
    (encrypt toyCrypto toyKey toyN1 toyN2 [1, 2, 3]).bind (decrypt toyCrypto toyKey) =
      .ok [1, 2, 3] := by
  obtain ⟨F, hF⟩ : ∃ F, encrypt toyCrypto toyKey toyN1 toyN2 [1, 2, 3] = .ok F := ⟨_, rfl⟩
  rw [hF]
  show decrypt toyCrypto toyKey F = .ok [1, 2, 3]
  exact c1_round_trip toyCrypto toyKey toyN1 toyN2 [1, 2, 3] F toy_sha256_len
    (toy_aead_round_trip toyKey) toy_deser_round_trip rfl rfl hF

/-- C2 (amended): overwriting any single byte inside a recorded decoy
(padding) block of a valid frame does NOT cause `decrypt` to fail: it
still returns exactly the original plaintext.  (So the universal
"any flip fails" claim is false, but no wrong plaintext is produced by
such a modification.) -/
theorem c2_decoy_overwrite (c : Crypto) (key n1 n2 P F : Bytes) (bIdx o v : Nat)
    (hsha : Sha256Len c) (hrt : AeadRoundTrip c key) (hdes : DeserRoundTrip c)
    (h1 : n1.length = 12) (h2 : n2.length = 12)
    (henc : encrypt c key n1 n2 P = .ok F)
    (hb : bIdx ∈ encPaddingPositions c key n1 P) (ho : o < 16) :
    decrypt c key
      (F.set (2 + (encEncryptedMetadata c key n1 n2 P).length + (bIdx * 16 + o)) v) =
      .ok P := by
  rw [encrypt_eq] at henc
  by_cases hlim : 65535 < (encEncryptedMetadata c key n1 n2 P).length
  · rw [if_pos hlim] at henc
    cases henc
  · rw [if_neg hlim] at henc
    have hF := (Except.ok.inj henc).symm
    subst hF
    have hb' : bIdx ∈ (addPadding ((encShuffled c key n1 P).getD [])
        (encRngAfterPerm c key n1 P)).2.1 := hb
    have hbound : bIdx < (encPaddedBlocks c key n1 P).length :=
      (addPadding_positions_incr ((encShuffled c key n1 P).getD [])
        (encRngAfterPerm c key n1 P)).2 bIdx hb'
    have hall := encPaddedBlocks_all16 c key n1 P
    have hform : ∀ X : Bytes,
        [(encEncryptedMetadata c key n1 n2 P).length / 256 % 256,
          (encEncryptedMetadata c key n1 n2 P).length % 256] ++
          encEncryptedMetadata c key n1 n2 P ++ X =
        ((encEncryptedMetadata c key n1 n2 P).length / 256 % 256) ::
          ((encEncryptedMetadata c key n1 n2 P).length % 256) ::
          (encEncryptedMetadata c key n1 n2 P ++ X) := by
      intro X
      simp
    rw [hform,
      show 2 + (encEncryptedMetadata c key n1 n2 P).length + (bIdx * 16 + o) =
        ((encEncryptedMetadata c key n1 n2 P).length + (bIdx * 16 + o)) + 1 + 1 from by omega,
      List.set_cons_succ, List.set_cons_succ,
      List.set_append_right _ _ (by omega),
      show (encEncryptedMetadata c key n1 n2 P).length + (bIdx * 16 + o) -
        (encEncryptedMetadata c key n1 n2 P).length = bIdx * 16 + o from by omega,
      flatten_set _ bIdx o v hall hbound ho, ← hform]
    refine decrypt_assembled_frame c key n1 n2 P _ hsha hrt hdes h1 h2 (by omega) ?_ ?_
    · intro b hbmem
      rcases List.mem_or_eq_of_mem_set hbmem with h | h
      · exact hall b h
      · rw [h, List.length_set, List.getD_eq_getElem _ _ hbound]
        exact hall _ (List.getElem_mem hbound)
    · rw [show (encryptMetadata c key n1 P).padding_positions =
        (addPadding ((encShuffled c key n1 P).getD [])
          (encRngAfterPerm c key n1 P)).2.1 from rfl,
        show encPaddedBlocks c key n1 P =
          (addPadding ((encShuffled c key n1 P).getD [])
            (encRngAfterPerm c key n1 P)).1 from rfl,
        removePadding_set_decoy _ _ bIdx _ hb']
      exact removePadding_addPadding _ _

set_option maxRecDepth 10000 in
theorem c2_decoy_overwrite_witness :
    decrypt toyCrypto toyKey
      (((encrypt toyCrypto toyKey toyN1 toyN2 [1, 2, 3]).toOption.getD []).set
        (2 + (encEncryptedMetadata toyCrypto toyKey toyN1 toyN2 [1, 2, 3]).length +
          (0 * 16 + 5)) 7) = .ok [1, 2, 3] := by
  obtain ⟨F, hF⟩ : ∃ F, encrypt toyCrypto toyKey toyN1 toyN2 [1, 2, 3] = .ok F := ⟨_, rfl⟩
  have hget : (encrypt toyCrypto toyKey toyN1 toyN2 [1, 2, 3]).toOption.getD [] = F := by
    rw [hF]
    rfl
  rw [hget]
  exact c2_decoy_overwrite toyCrypto toyKey toyN1 toyN2 [1, 2, 3] F 0 5 7 toy_sha256_len
    (toy_aead_round_trip toyKey) toy_deser_round_trip rfl rfl hF (by decide) (by omega)

set_option maxRecDepth 10000 in
theorem c2_counterexample :
    (encrypt toyCrypto toyKey toyN1 toyN2 [1, 2, 3]).map
      (fun F => decrypt toyCrypto toyKey (F.set 95 7)) = .ok (.ok [1, 2, 3]) ∧
    (encEncryptedMetadata toyCrypto toyKey toyN1 toyN2 [1, 2, 3]).length = 93 ∧
    (encrypt toyCrypto toyKey toyN1 toyN2 [1, 2, 3]).map
      (fun F => decide (2 + 93 ≤ 95 ∧ 95 < F.length ∧ F.getD 95 0 ≠ 7)) = .ok true :=
  ⟨rfl, rfl, rfl⟩

/-- C3: the derived permutation and the recorded padding positions are
identical across two `encrypt` calls under the same key whose AEAD
ciphertexts split into the same number of blocks — in particular on
equal-length plaintexts — independently of the nonces and of message
content. -/
theorem c3_shape_determinism :
    (∀ (c : Crypto) (key n1 n1' P Q : Bytes),
      (encBlocks c key n1 P).length = (encBlocks c key n1' Q).length →
      encPermutation c key n1 P = encPermutation c key n1' Q ∧
      encPaddingPositions c key n1 P = encPaddingPositions c key n1' Q) ∧
    (∀ (c : Crypto) (key n1 n1' P Q : Bytes), Sha256Len c → AeadLen c →
      n1.length = n1'.length → P.length = Q.length →
      (encBlocks c key n1 P).length = (encBlocks c key n1' Q).length) := by
  constructor
  · intro c key n1 n1' P Q h
    constructor
    · rw [encPermutation, encPermutation, h]
    · rcases encShuffled_isSome c key n1 P with ⟨s, hs, hsl⟩
      rcases encShuffled_isSome c key n1' Q with ⟨s', hs', hsl'⟩
      rw [encPaddingPositions, encPaddingPositions, hs, hs']
      simp only [Option.getD_some, addPadding]
      rw [encRngAfterPerm, encRngAfterPerm, h]
      exact (addPaddingGo_shape s s' _ [] [] [] (by rw [hsl, hsl', h]) rfl).1
  · intro c key n1 n1' P Q hsha hal hn hpq
    have hl : (encAeadCiphertext c key n1 P).length = (encAeadCiphertext c key n1' Q).length := by
      rw [encAeadCiphertext, encAeadCiphertext, aesEncrypt, aesEncrypt]
      have h1 := hal key n1 (privateEncrypt c key P)
      have h2 := hal key n1' (privateEncrypt c key Q)
      simp only [List.length_append, h1, h2,
        privateEncrypt_length c key P hsha, privateEncrypt_length c key Q hsha, hn, hpq]
    rw [encBlocks, encBlocks, splitIntoBlocks_length, splitIntoBlocks_length, hl]

theorem c3_shape_determinism_witness :
    encPermutation toyCrypto toyKey toyN1 [1, 2, 3] =
      encPermutation toyCrypto toyKey toyN1 [7, 8, 9] ∧
    encPaddingPositions toyCrypto toyKey toyN1 [1, 2, 3] =
      encPaddingPositions toyCrypto toyKey toyN1 [7, 8, 9] :=
  c3_shape_determinism.1 toyCrypto toyKey toyN1 toyN1 [1, 2, 3] [7, 8, 9]
    (c3_shape_determinism.2 toyCrypto toyKey toyN1 toyN1 [1, 2, 3] [7, 8, 9]
      toy_sha256_len toy_aead_len rfl rfl)

/-- C4 (amended): `decrypt` is a total function (never panics) that
fails with ValidationError when the frame is shorter than 2 bytes or the
declared metadata length exceeds the remaining buffer; when the block
region is not a multiple of 16 it fails with ValidationError provided
the encrypted metadata authenticated and parsed (otherwise it has
already failed with the metadata-layer error, e.g. a CryptoError). -/
theorem c4_decode_validation (c : Crypto) (key data : Bytes) :
    (data.length < 2 → decrypt c key data = .error .dataTooShort) ∧
    (¬ data.length < 2 →
      data.length < 2 + (data.getD 0 0 * 256 + data.getD 1 0) →
      decrypt c key data = .error .metadataRange) ∧
    (∀ mb md, ¬ data.length < 2 →
      ¬ data.length < 2 + (data.getD 0 0 * 256 + data.getD 1 0) →
      aesDecrypt c key ((data.drop 2).take (data.getD 0 0 * 256 + data.getD 1 0)) = .ok mb →
      c.deserMeta mb = some md →
      (data.drop (2 + (data.getD 0 0 * 256 + data.getD 1 0))).length % 16 ≠ 0 →
      decrypt c key data = .error .blockAlignment) ∧
    errKind .dataTooShort = ErrKind.validation ∧
    errKind .metadataRange = ErrKind.validation ∧
    errKind .blockAlignment = ErrKind.validation := by
  refine ⟨?_, ?_, ?_, rfl, rfl, rfl⟩
  · intro h
    rw [decrypt, if_pos h]
  · intro h1 h2
    simp only [decrypt]
    rw [if_neg h1, if_pos h2]
  · intro mb md h1 h2 hmb hmd halign
    simp only [decrypt]
    rw [if_neg h1, if_neg h2]
    simp only [hmb, hmd]
    rw [decryptBlocks, if_pos (by omega)]

theorem c4_decode_validation_witness :
    decrypt toyCrypto toyKey [0, 5, 1] = .error .metadataRange :=
  (c4_decode_validation toyCrypto toyKey [0, 5, 1]).2.1 (by decide) (by decide)

theorem c4_counterexample :
    decrypt toyCrypto toyKey [0, 0, 1, 1, 1] = .error .nonceMissing ∧
    errKind .nonceMissing = ErrKind.crypto ∧
    (([0, 0, 1, 1, 1] : Bytes).drop 2).length % 16 ≠ 0 ∧
    ¬ ([0, 0, 1, 1, 1] : Bytes).length < 2 ∧
    ¬ ([0, 0, 1, 1, 1] : Bytes).length <
        2 + (([0, 0, 1, 1, 1] : Bytes).getD 0 0 * 256 + ([0, 0, 1, 1, 1] : Bytes).getD 1 0) :=
  ⟨rfl, rfl, by decide, by decide, by decide⟩

/-- C5: applying a bijective permutation and inverting it round-trips,
with `shuffled[k] = blocks[perm[k]]`; `invertPermutation` fails with
ValidationError on a length mismatch or an out-of-range index. -/
theorem c5_permutation_round_trip :
    (∀ (blocks : List Block) (perm : List Nat),
      perm.length = blocks.length → perm.Nodup → (∀ x ∈ perm, x < blocks.length) →
      ∃ shuffled, applyPermutation blocks perm = some shuffled ∧
        (∀ k, k < perm.length → shuffled.getD k [] = blocks.getD (perm.getD k 0) []) ∧
        reversePermutation shuffled perm = .ok blocks) ∧
    (∀ (blocks : List Block) (perm : List Nat), blocks.length ≠ perm.length →
      reversePermutation blocks perm = .error .permLenMismatch) ∧
    (∀ (blocks : List Block) (perm : List Nat), blocks.length = perm.length →
      (∃ p ∈ perm, blocks.length ≤ p) →
      reversePermutation blocks perm = .error .permRange) := by
  refine ⟨?_, ?_, ?_⟩
  · intro blocks perm hlen hnd hmem
    rcases applyPermutation_isSome perm blocks hmem with ⟨s, hs⟩
    exact ⟨s, hs, fun k hk => applyPermutation_getD perm blocks s hs k hk,
      reversePermutation_applyPermutation blocks perm hlen hnd hmem s hs⟩
  · intro blocks perm h
    rw [reversePermutation, if_pos h]
  · intro blocks perm hlen hoob
    rw [reversePermutation, if_neg (by omega)]
    exact revGo_error_of_oob perm _ blocks 0 hoob

theorem c5_permutation_round_trip_witness :
    reversePermutation [[2], [1]] [1, 0] = .ok [[1], [2]] ∧
    reversePermutation [[2]] [1, 0] = .error .permLenMismatch ∧
    reversePermutation [[2], [1]] [5, 0] = .error .permRange := by
  refine ⟨?_, c5_permutation_round_trip.2.1 [[2]] [1, 0] (by decide),
    c5_permutation_round_trip.2.2 [[2], [1]] [5, 0] (by decide) ⟨5, by decide, by decide⟩⟩
  rcases c5_permutation_round_trip.1 [[1], [2]] [1, 0] (by decide) (by decide)
    (by decide) with ⟨s, hs, _, hrev⟩
  have hseq : s = [[2], [1]] := by
    have heval : applyPermutation [[1], [2]] [1, 0] = some [[2], [1]] := by decide
    rw [heval] at hs
    exact (Option.some.inj hs).symm
  rwa [hseq] at hrev

/-- C6: removing the positions recorded by the padding injector from its
augmented output recovers exactly the original block list, for every
block list and every generator state; positions are processed in
descending order, and an out-of-range position yields ValidationError. -/
theorem c6_padding_round_trip :
    (∀ (blocks : List Block) (rng : Rng),
      removePadding (addPadding blocks rng).1 (addPadding blocks rng).2.1 = .ok blocks) ∧
    (∀ ps : List Nat, (sortDesc ps).Pairwise (· ≥ ·) ∧ (sortDesc ps).Perm ps) ∧
    (∀ (blocks : List Block) (ps : List Nat), (∃ p ∈ ps, blocks.length ≤ p) →
      removePadding blocks ps = .error .paddingRange) :=
  ⟨removePadding_addPadding,
   fun ps => ⟨sortDesc_sorted ps, sortDesc_perm ps⟩,
   fun blocks ps h => removePadding_error_of_oob blocks ps h⟩

theorem c6_padding_round_trip_witness :
    removePadding (addPadding [[7]] ⟨fun _ => 0, 0⟩).1
      (addPadding [[7]] ⟨fun _ => 0, 0⟩).2.1 = .ok [[7]] ∧
    removePadding [[7]] [3] = .error .paddingRange :=
  ⟨c6_padding_round_trip.1 [[7]] ⟨fun _ => 0, 0⟩,
   c6_padding_round_trip.2.2 [[7]] [3] ⟨3, by decide, by decide⟩⟩

/-- C7: the padding injector walks the shuffled list from the front;
before each block it draws exactly one generator value and, when that
draw is divisible by 3 (probability 1/3), inserts one freshly generated
16-byte decoy block at the current position (index `acc.length` of the
final list) and records that position, then advances past the inserted
block; it always advances past the current block, and stops at the end.
Each insertion grows the output by exactly one block per recorded
position. -/
theorem c7_padding_walk :
    (∀ (rng : Rng) (acc rest : List Block) (positions : List Nat) (b : Block),
      ((nextU32 rng).1 % 3 = 0 →
        addPaddingGo rng acc positions (b :: rest) =
          addPaddingGo (fillBytes16 (nextU32 rng).2).2
            (acc ++ [(fillBytes16 (nextU32 rng).2).1, b]) (positions ++ [acc.length]) rest ∧
        ((fillBytes16 (nextU32 rng).2).1).length = 16) ∧
      ((nextU32 rng).1 % 3 ≠ 0 →
        addPaddingGo rng acc positions (b :: rest) =
          addPaddingGo (nextU32 rng).2 (acc ++ [b]) positions rest) ∧
      addPaddingGo rng acc positions [] = (acc, positions, rng)) ∧
    (∀ (blocks : List Block) (rng : Rng),
      (addPadding blocks rng).1.length =
        blocks.length + (addPadding blocks rng).2.1.length) := by
  constructor
  · intro rng acc rest positions b
    have hstep : addPaddingGo rng acc positions (b :: rest) =
        if (nextU32 rng).1 % 3 = 0 then
          addPaddingGo (fillBytes16 (nextU32 rng).2).2
            (acc ++ [(fillBytes16 (nextU32 rng).2).1, b]) (positions ++ [acc.length]) rest
        else addPaddingGo (nextU32 rng).2 (acc ++ [b]) positions rest := rfl
    refine ⟨?_, ?_, rfl⟩
    · intro h3
      exact ⟨by rw [hstep, if_pos h3], by simp [fillBytes16, nextU32, leBytes]⟩
    · intro h3
      rw [hstep, if_neg h3]
  · intro blocks rng
    have h := addPaddingGo_length blocks rng [] []
    simp only [addPadding, List.length_nil] at h ⊢
    omega

theorem c7_padding_walk_witness :
    addPaddingGo ⟨fun _ => 0, 0⟩ [] [] [[9]] =
      addPaddingGo (fillBytes16 (nextU32 ⟨fun _ => 0, 0⟩).2).2
        ([] ++ [(fillBytes16 (nextU32 ⟨fun _ => 0, 0⟩).2).1, [9]]) ([] ++ [List.length ([] : List Block)]) [] ∧
    ((fillBytes16 (nextU32 ⟨fun _ => 0, 0⟩).2).1).length = 16 :=
  (c7_padding_walk.1 ⟨fun _ => 0, 0⟩ [] [] [] [9]).1 (by decide)

/-- C8: `from_hex` fails with ValidationError on odd-length (63- or
65-character) strings, on any non-hex character, and on anything not
decoding to exactly 32 bytes; every valid 64-character hex string is
accepted and `private_key_hex` returns it lowercased. -/
theorem c8_key_format :
    (∀ s : Bytes, s.length % 2 = 1 → fromHex s = .error .hexInvalid) ∧
    (∀ (s : Bytes) (x : Nat), x ∈ s → hexVal x = none → fromHex s = .error .hexInvalid) ∧
    (∀ s bs : Bytes, hexDecode s = some bs → bs.length ≠ 32 →
      fromHex s = .error .keyLength) ∧
    errKind .hexInvalid = ErrKind.validation ∧ errKind .keyLength = ErrKind.validation ∧
    (∀ s : Bytes, s.length = 64 → (∀ x ∈ s, (hexVal x).isSome = true) →
      ∃ key, fromHex s = .ok key ∧ key.length = 32 ∧
        privateKeyHex key = s.map lowerByte) := by
  refine ⟨?_, ?_, ?_, rfl, rfl, ?_⟩
  · intro s h
    rw [fromHex, hexDecode_odd s h]
  · intro s x hx hv
    rw [fromHex, hexDecode_mem_none s x hx hv]
  · intro s bs h hne
    rw [fromHex]
    simp only [h]
    rw [if_pos hne]
  · intro s h64 hall
    rcases hexDecode_total s (by omega) hall with ⟨bs, hbs⟩
    have hlen : bs.length = 32 := by
      have := hexDecode_length s bs hbs
      omega
    refine ⟨bs, ?_, hlen, ?_⟩
    · rw [fromHex]
      simp only [hbs]
      rw [if_neg (by omega)]
    · rw [privateKeyHex]
      exact hexEncode_hexDecode s bs hbs

theorem c8_key_format_witness :
    fromHex (List.replicate 63 48) = .error .hexInvalid ∧
    ∃ key, fromHex (List.replicate 64 48) = .ok key ∧ key.length = 32 ∧
      privateKeyHex key = (List.replicate 64 48).map lowerByte :=
  ⟨c8_key_format.1 _ (by simp),
   c8_key_format.2.2.2.2.2 _ (by simp)
     (fun x hx => by rw [List.eq_of_mem_replicate hx]; rfl)⟩

/-- C9: the generated permutation is a bijection on `[0, n)` (it is a
permutation of `range n`, has no duplicates, stays below `n`, and has
length `n`); consequently the unchecked indexing in
`apply_permutation` inside `encrypt` is always in bounds (the
application never returns the modelled panic). -/
theorem c9_permutation_bijection :
    (∀ (n : Nat) (rng : Rng),
      ((generatePermutation n rng).1).Perm (List.range n) ∧
      ((generatePermutation n rng).1).Nodup ∧
      (∀ x ∈ (generatePermutation n rng).1, x < n) ∧
      (generatePermutation n rng).1.length = n) ∧
    (∀ (c : Crypto) (key n1 P : Bytes),
      (applyPermutation (encBlocks c key n1 P) (encPermutation c key n1 P)).isSome = true) := by
  refine ⟨fun n rng => ⟨generatePermutation_perm n rng, generatePermutation_nodup n rng,
    generatePermutation_mem_lt n rng, generatePermutation_length n rng⟩, ?_⟩
  intro c key n1 P
  rcases encShuffled_isSome c key n1 P with ⟨s, hs, _⟩
  rw [encShuffled] at hs
  rw [hs]
  rfl

theorem c9_permutation_bijection_witness :
    ((generatePermutation 4 ⟨fun _ => 0, 0⟩).1).Perm (List.range 4) ∧
    (applyPermutation (encBlocks toyCrypto toyKey toyN1 [1, 2, 3])
      (encPermutation toyCrypto toyKey toyN1 [1, 2, 3])).isSome = true :=
  ⟨(c9_permutation_bijection.1 4 ⟨fun _ => 0, 0⟩).1,
   c9_permutation_bijection.2 toyCrypto toyKey toyN1 [1, 2, 3]⟩

/-- C10: sufficiently long well-formed plaintexts make the serialized
metadata (dominated by the permutation list) exceed the 16-bit length
field after AEAD encryption, so `encrypt` returns an error instead of a
frame: any plaintext of at least 524096 bytes fails with the
metadata-too-long error. -/
theorem c10_metadata_overflow (c : Crypto) (key n1 n2 P : Bytes)
    (hsha : Sha256Len c) (hal : AeadLen c) (h1 : n1.length = 12) (h2 : n2.length = 12)
    (hP : 524096 ≤ P.length) :
    encrypt c key n1 n2 P = .error .metadataTooLong := by
  have hctlen : (encAeadCiphertext c key n1 P).length = P.length + 28 := by
    rw [encAeadCiphertext, aesEncrypt]
    have ha := hal key n1 (privateEncrypt c key P)
    simp only [List.length_append, ha, privateEncrypt_length c key P hsha, h1]
    omega
  have hperm : (encryptMetadata c key n1 P).permutation.length = (P.length + 28 + 15) / 16 := by
    have hp : (encryptMetadata c key n1 P).permutation = encPermutation c key n1 P := rfl
    rw [hp, encPermutation, generatePermutation_length, encBlocks,
      splitIntoBlocks_length, hctlen]
  have hser := serMeta_length_ge (encryptMetadata c key n1 P)
  have hemlen : (encEncryptedMetadata c key n1 n2 P).length =
      (serMeta (encryptMetadata c key n1 P)).length + 28 := by
    rw [encEncryptedMetadata, aesEncrypt]
    have ha := hal key n2 (serMeta (encryptMetadata c key n1 P))
    simp only [List.length_append, ha, h2]
    omega
  rw [encrypt_eq, if_pos (by omega)]

theorem c10_metadata_overflow_witness :
    encrypt toyCrypto toyKey toyN1 toyN2 (List.replicate 524096 0) =
      .error .metadataTooLong :=
  c10_metadata_overflow toyCrypto toyKey toyN1 toyN2 (List.replicate 524096 0)
    toy_sha256_len toy_aead_len rfl rfl (by rw [List.length_replicate])

end Yueling
